import Mathlib

/-!
Shallow embedding of the dbase-rs crate: the writer module `src/writing.rs` and the
macro / error surface of `src/lib.rs` are embedded from the source; the crate modules
`header`, `reading` and `record` are referenced by `src/lib.rs` but their sources are
not part of the snapshot, so the corresponding definitions are modelled from the spec
and carry a doc comment starting with `Modelled from the spec:`.

Conventions: bytes are `Nat`s below 256; machine integers are `Nat` with an explicit
`% 2 ^ w` wherever Rust performs an `as` cast or a wrapping add; Rust `Result` errors
are the `Res.err` outcome, Rust panics (`panic!`, `unwrap` on `None`) are the
`Res.crash` outcome carrying the message.
-/

/-- Field type tags (spec §3/§4.2): one tag per FieldValue variant. -/
inductive FieldType where
  | Character
  | Numeric
  | Float
  | Date
  | Logical
deriving DecidableEq, Repr

/-- Modelled from the spec: §3, a Date is a (year, month, day) triple (module `record`
is not in the snapshot). -/
structure DateVal where
  year : Nat
  month : Nat
  day : Nat
deriving DecidableEq, Repr

/-- Modelled from the spec: §3 FieldValue tagged union, each variant optionally empty
(null); the 64-bit float payloads of Numeric/Float are modelled as rationals, which is
exact for every finite double since doubles are dyadic (module `record` is not in the
snapshot). -/
inductive FieldValue where
  | Character : Option String → FieldValue
  | Numeric : Option ℚ → FieldValue
  | Float : Option ℚ → FieldValue
  | Date : Option DateVal → FieldValue
  | Logical : Option Bool → FieldValue
deriving DecidableEq, Repr

/-- Error enum of src/lib.rs:56-69; the payloads of the wrapped std errors are dropped,
InvalidFieldType carries the offending tag byte. -/
inductive Error where
  | IoError
  | ParseFloatError
  | ParseIntError
  | InvalidFieldType : Nat → Error
  | InvalidDate
  | FieldLengthTooLong
  | FieldNameTooLong
  | FieldTypeNotAsExpected : FieldType → Error
deriving DecidableEq, Repr

/-- Outcome of running a fallible Rust function: `ok`, an `Err` value, or a panic
carrying the panic message. -/
inductive Res (α : Type) where
  | ok : α → Res α
  | err : Error → Res α
  | crash : String → Res α
deriving DecidableEq, Repr

def Res.bind {α β : Type} : Res α → (α → Res β) → Res β
  | .ok a, f => f a
  | .err e, _ => .err e
  | .crash m, _ => .crash m

instance : Monad Res where
  pure := Res.ok
  bind := Res.bind

instance : LawfulMonad Res :=
  LawfulMonad.mk' Res (fun x => by cases x <;> rfl) (fun _ _ => rfl)
    (fun x _ _ => by cases x <;> rfl)

def Res.isOk {α : Type} : Res α → Bool
  | .ok _ => true
  | _ => false

/-- Byte sink implementing the `Write` trait: `written` holds the bytes accepted so
far; `failAt = some n` makes the write of the byte that would land at offset `n` fail
once (a transient io error), accepting nothing for that call. `failAt = none` is a
sink whose writes always succeed. -/
structure Sink where
  written : List Nat
  failAt : Option Nat
deriving DecidableEq, Repr

def Sink.clean : Sink := ⟨[], none⟩

def Sink.writeByte (s : Sink) (b : Nat) : Sink × Bool :=
  if s.failAt = some s.written.length then (⟨s.written, none⟩, false)
  else (⟨s.written ++ [b], s.failAt⟩, true)

/-- One byte through `write_u8` behind the `?` operator. -/
def wByte (s : Sink) (b : Nat) : Res Sink :=
  match s.writeByte b with
  | (s', true) => .ok s'
  | (_, false) => .err .IoError

/-- A byte slice through `write_all` behind the `?` operator. -/
def wBytes (s : Sink) : List Nat → Res Sink
  | [] => .ok s
  | b :: rest => Res.bind (wByte s b) (fun s' => wBytes s' rest)

/-! Decimal digit printing, structural in a fuel argument so the kernel can evaluate
it; proved equal to `Nat.digits 10` below. -/

/-- Base-10 digits, least significant first, with explicit fuel. -/
def digitsRevAux : Nat → Nat → List Nat
  | 0, _ => []
  | _ + 1, 0 => []
  | fuel + 1, n + 1 => (n + 1) % 10 :: digitsRevAux fuel ((n + 1) / 10)

/-- Base-10 digits of `n`, least significant first. -/
def decDigits (n : Nat) : List Nat := digitsRevAux n n

/-- ASCII bytes of `n` printed in decimal, most significant digit first ("0" for 0). -/
def natBytes (n : Nat) : List Nat :=
  if n = 0 then [48] else ((decDigits n).reverse).map (· + 48)

/-- ASCII bytes of `n` printed zero-padded to (at least) width `k`. -/
def padBytes (k n : Nat) : List Nat :=
  (List.replicate (k - (decDigits n).length) 0 ++ (decDigits n).reverse).map (· + 48)

/-- Multiplicity of `p` in `n` (0 when `p < 2` or `n = 0`), with explicit fuel. -/
def multOfAux : Nat → Nat → Nat → Nat
  | 0, _, _ => 0
  | fuel + 1, p, n => if 2 ≤ p ∧ 0 < n ∧ n % p = 0 then multOfAux fuel p (n / p) + 1 else 0

def multOf (p n : Nat) : Nat := multOfAux n p n

/-- Decimal exponent used to print the rational `q`: the least `k` with
`q.den ∣ 10 ^ k` when the denominator is of the form `2 ^ a * 5 ^ b`. -/
def decExp (q : ℚ) : Nat := max (multOf 2 q.den) (multOf 5 q.den)

/-- Digits-and-point core of the decimal print of the scaled numerator. -/
def ratCoreBytes (m k : Nat) : List Nat :=
  if k = 0 then natBytes m
  else natBytes (m / 10 ^ k) ++ [46] ++ padBytes k (m % 10 ^ k)

/-- Modelled from the spec: §4.3/§3, Numeric and Float values are stored as plain ASCII
decimal text (optional minus sign, integer digits, optional point and fraction digits);
exact for payloads whose denominator divides a power of ten, i.e. for every double
(module `record` is not in the snapshot). -/
def ratBytes (q : ℚ) : List Nat :=
  let k := decExp q
  let m := q.num.natAbs * 10 ^ k / q.den
  if q < 0 then 45 :: ratCoreBytes m k else ratCoreBytes m k

def FieldValue.field_type : FieldValue → FieldType
  | .Character _ => .Character
  | .Numeric _ => .Numeric
  | .Float _ => .Float
  | .Date _ => .Date
  | .Logical _ => .Logical

/-- Modelled from the spec: §4.3(c), the encoded bytes of one value, no padding
(Character bytes are the chars' code points, faithful for ASCII strings; a null value
writes nothing and is filled by the caller's space padding; Logical prints T/F; Date
prints YYYYMMDD). -/
def FieldValue.bytes : FieldValue → List Nat
  | .Character none => []
  | .Character (some s) => s.data.map Char.toNat
  | .Numeric none => []
  | .Numeric (some q) => ratBytes q
  | .Float none => []
  | .Float (some q) => ratBytes q
  | .Date none => []
  | .Date (some d) =>
    padBytes 4 (d.year % 10000) ++ padBytes 2 (d.month % 100) ++ padBytes 2 (d.day % 100)
  | .Logical none => []
  | .Logical (some b) => if b then [84] else [70]

/-- Modelled from the spec: §4.3(a), the exact encoded width of a value instance. -/
def FieldValue.size_in_bytes (v : FieldValue) : Nat := v.bytes.length

/-- FieldValue::write_to — emit the value's own bytes, return the count written. -/
def FieldValue.write_to (v : FieldValue) (s : Sink) : Res (Sink × Nat) :=
  Res.bind (wBytes s v.bytes) (fun s' => .ok (s', v.bytes.length))

/-- Field descriptor record (module `record`'s RecordFieldInfo): name, type, length. -/
structure RecordFieldInfo where
  name : String
  field_type : FieldType
  field_length : Nat
deriving DecidableEq, Repr

/-- Descriptor entries occupy 32 bytes on disk (spec §6). -/
def RecordFieldInfo.SIZE : Nat := 32

/-- Modelled from the spec: §4.1/§4.2, builder used by Writer::write. -/
def RecordFieldInfo.with_length (n : String) (t : FieldType) (l : Nat) : RecordFieldInfo :=
  ⟨n, t, l⟩

/-- Modelled from the spec: §4.5(2), builder used by Writer::write_records; the length
starts at zero and is negotiated by the per-record maximum scan. -/
def RecordFieldInfo.new (n : String) (t : FieldType) : RecordFieldInfo := ⟨n, t, 0⟩

def tagByte : FieldType → Nat
  | .Character => 67
  | .Numeric => 78
  | .Float => 70
  | .Date => 68
  | .Logical => 76

/-- Modelled from the spec: §6, the 32-byte descriptor entry: name slot (padded with
NUL), type tag, 4 reserved bytes, length, decimal count, 14 reserved bytes. -/
def descBytes (i : RecordFieldInfo) : List Nat :=
  let nb := (i.name.data.map Char.toNat).take 10
  nb ++ List.replicate (11 - nb.length) 0 ++ [tagByte i.field_type] ++ [0, 0, 0, 0]
    ++ [i.field_length % 256] ++ [0] ++ List.replicate 14 0

structure Header where
  num_records : Nat
  offset_to_first_record : Nat
  size_of_record : Nat
deriving DecidableEq, Repr

/-- The header preamble occupies 32 bytes on disk (spec §6). -/
def Header.SIZE : Nat := 32

/-- Modelled from the spec: §4.1, Header::new is a pure builder performing no
validation beyond byte-range casts (u32 record count, u16 sizes). -/
def Header.new (n o r : Nat) : Header := ⟨n % 2 ^ 32, o % 2 ^ 16, r % 2 ^ 16⟩

def le16 (n : Nat) : List Nat := [n % 256, n / 256 % 256]

def le32 (n : Nat) : List Nat :=
  [n % 256, n / 256 % 256, n / 65536 % 256, n / 16777216 % 256]

/-- Modelled from the spec: §6, the 32-byte header preamble: version byte, last-update
date, record count (LE u32), header size (LE u16), record size (LE u16), reserved
padding. -/
def headerBytes (h : Header) : List Nat :=
  [3, 0, 0, 0] ++ le32 h.num_records ++ le16 h.offset_to_first_record
    ++ le16 h.size_of_record ++ List.replicate 20 0

/-- Header::encode to a sink. -/
def Header.write_to (h : Header) (s : Sink) : Res Sink := wBytes s (headerBytes h)

/-- RecordFieldInfo::write_to — one 32-byte descriptor entry. -/
def RecordFieldInfo.write_to (i : RecordFieldInfo) (s : Sink) : Res Sink :=
  wBytes s (descBytes i)

/-- reading::TERMINATOR_VALUE, the descriptor-table sentinel 0x0D (spec §6). -/
def TERMINATOR_VALUE : Nat := 13

/-- writing.rs:15, the file terminator 0x1A. -/
def FILE_TERMINATOR : Nat := 26

/-- Modelled from the spec: §3, a Record is an ordered mapping from field name to
FieldValue (module `reading` is not in the snapshot): an association list in which the
first binding for a name wins. -/
abbrev Record := List (String × FieldValue)

/-- First-binding association lookup (`HashMap::get` of the ordered-mapping model). -/
def lookupF (nm : String) : Record → Option FieldValue
  | [] => none
  | p :: rest => if p.1 = nm then some p.2 else lookupF nm rest

/-! The schema-inferred writer, Writer::write (src/writing.rs:54-111). -/

/-- Pass 1 (writing.rs:58-70): initial field infos from the first record's entries,
rejecting any value whose encoded size exceeds `u8::MAX`. -/
def buildFirstInfos (first : Record) : Except Error (List RecordFieldInfo) :=
  first.mapM (fun p =>
    if 255 < p.2.size_in_bytes then .error .FieldLengthTooLong
    else .ok (RecordFieldInfo.with_length p.1 p.2.field_type p.2.size_in_bytes))

/-- Panic message of Rust `Option::unwrap` on `None`. -/
def unwrapMsg : String := "called Option unwrap on a None value"

/-- Pass 2 body (writing.rs:73-82): for one later record, raise each field length to
the running maximum; a field name the record lacks is the unwrap crash of line 75. -/
def updateInfos (names : List String) (r0 : Record) (infos : List RecordFieldInfo) :
    Res (List RecordFieldInfo) :=
  (names.zip infos).mapM (fun p =>
    match lookupF p.1 r0 with
    | none => Res.crash unwrapMsg
    | some v =>
      if 255 < v.size_in_bytes then .err .FieldLengthTooLong
      else .ok { p.2 with field_length := max p.2.field_length v.size_in_bytes })

/-- Field order and finalized field infos computed by Writer::write before any byte is
emitted (writing.rs:58-82). -/
def computeInfos (first : Record) (rest : List Record) :
    Res (List String × List RecordFieldInfo) :=
  match buildFirstInfos first with
  | .error e => .err e
  | .ok infos0 =>
    Res.bind (rest.foldlM (fun infos r0 => updateInfos (first.map Prod.fst) r0 infos) infos0)
      (fun infos => .ok (first.map Prod.fst, infos))

/-- Sum of the field lengths folded in `u16` (writing.rs:85, release wrap semantics). -/
def sumLengths (infos : List RecordFieldInfo) : Nat :=
  infos.foldl (fun a i => (a + i.field_length) % 65536) 0

/-- Header built by both writers (writing.rs:84-86 and 137-146): record count, offset
to first record, size of one record. -/
def hdrOf (n : Nat) (infos : List RecordFieldInfo) : Header :=
  Header.new n (Header.SIZE + infos.length * RecordFieldInfo.SIZE + 1) (sumLengths infos)

/-- Per-field emission of Writer::write (writing.rs:98-107): fetch the value by name
(unwrap), write its bytes, compare the count cast to u8 against the descriptor length
(panic when it exceeds it), then pad with spaces to the descriptor length. -/
def writeField (r0 : Record) (s : Sink) (p : String × RecordFieldInfo) : Res Sink :=
  match lookupF p.1 r0 with
  | none => Res.crash unwrapMsg
  | some v =>
    Res.bind (v.write_to s) (fun sn =>
      let bw := sn.2 % 256
      if p.2.field_length < bw then Res.crash "record length was miscalculated"
      else wBytes sn.1 (List.replicate (p.2.field_length - bw) 32))

/-- One record's emission in Writer::write (writing.rs:96-108): the deletion flag
byte then every field, fetched by name in the inferred field order. -/
def recordStep (names : List String) (infos : List RecordFieldInfo)
    (sx : Sink) (r0 : Record) : Res Sink :=
  Res.bind (wByte sx 32) (fun sy => (names.zip infos).foldlM (writeField r0) sy)

/-- Emission phase of Writer::write (writing.rs:84-110): header, descriptors,
descriptor terminator, records, file terminator. -/
def writeCont (rs : List Record) (s : Sink)
    (ni : List String × List RecordFieldInfo) : Res Sink :=
  Res.bind ((hdrOf rs.length ni.2).write_to s) (fun s1 =>
  Res.bind (ni.2.foldlM (fun sx i => i.write_to sx) s1) (fun s2 =>
  Res.bind (wByte s2 TERMINATOR_VALUE) (fun s3 =>
  Res.bind (rs.foldlM (recordStep ni.1 ni.2) s3)
    (fun s4 => Res.bind (wByte s4 FILE_TERMINATOR) Res.ok))))

/-- Writer::write (writing.rs:54-111): empty input returns the sink unchanged;
otherwise infer the schema from the records, then emit header, descriptors,
descriptor terminator, flagged padded records, and the file terminator. -/
def Writer.write (s : Sink) (records : List Record) : Res Sink :=
  match records with
  | [] => .ok s
  | first :: rest =>
    Res.bind (computeInfos first rest) (writeCont (first :: rest) s)

/-! The statically-typed writer, Writer::write_records (src/writing.rs:115-187). -/

/-- Capability exposed by a typed record (trait DBaseRecord, src/lib.rs:89-100): the
static (name, type) schema and the buffer-filling length / value functions; the
buffers are modelled by passing the previous list in and taking the returned one. -/
structure DBaseImpl (R : Type) where
  fieldsInfo : List (String × FieldType)
  fieldsLength : R → List Nat → List Nat
  fieldsValues : R → List FieldValue → List FieldValue

/-- One record's emission step inside Writer::write_records (writing.rs:159-183):
deletion flag, then per field the schema type check (panic on mismatch), value write,
the u8::MAX length check (panic), the miscalculation check (panic), and conditional
space padding. The values buffer is threaded through. -/
def writeRecStep {R : Type} (impl : DBaseImpl R) (infos : List RecordFieldInfo)
    (st : Sink × List FieldValue) (r0 : R) : Res (Sink × List FieldValue) :=
  let vals := impl.fieldsValues r0 st.2
  Res.bind (wByte st.1 32) (fun s1 =>
    Res.bind ((vals.zip infos).foldlM (fun s2 pv =>
        if pv.1.field_type ≠ pv.2.field_type then
          Res.crash "Field Value type given does not match expected field type"
        else
          Res.bind (pv.1.write_to s2) (fun sn =>
            if 255 < sn.2 then Res.crash "FieldValue was too long"
            else if pv.2.field_length < sn.2 then Res.crash "record length was miscalculated"
            else
              let pad := pv.2.field_length - sn.2 % 256
              if 0 < pad then wBytes sn.1 (List.replicate pad 32) else .ok sn.1)) s1)
      (fun s3 => .ok (s3, vals)))

/-- Length-negotiation scan of Writer::write_records (writing.rs:126-135): the u8
sizes buffer is filled by the record and folded into the running maxima. -/
def scanSizes {R : Type} (impl : DBaseImpl R)
    (st : List RecordFieldInfo × List Nat) (r0 : R) : List RecordFieldInfo × List Nat :=
  let sizes := (impl.fieldsLength r0 st.2).map (· % 256)
  (st.1.zipWith (fun i z => { i with field_length := max i.field_length z }) sizes, sizes)

/-- Finalized field infos of Writer::write_records (writing.rs:121-135). -/
def typedInfos {R : Type} (impl : DBaseImpl R) (records : List R) : List RecordFieldInfo :=
  let infos0 := impl.fieldsInfo.map (fun p => RecordFieldInfo.new p.1 p.2)
  (records.foldl (scanSizes impl) (infos0, List.replicate infos0.length 0)).1

/-- Writer::write_records (writing.rs:116-186). Note the faithful modelling of
writing.rs:151: the io result of writing the descriptor terminator is dropped, not
checked — on failure the byte is simply missing from the output. -/
def Writer.write_records {R : Type} (impl : DBaseImpl R) (s : Sink) (records : List R) :
    Res Sink :=
  match records with
  | [] => .ok s
  | _ :: _ =>
    let infos := typedInfos impl records
    let hdr := hdrOf records.length infos
    Res.bind (hdr.write_to s) (fun s1 =>
    Res.bind (infos.foldlM (fun sx i => i.write_to sx) s1) (fun s2 =>
    let s3 := (s2.writeByte TERMINATOR_VALUE).1
    Res.bind (records.foldlM (writeRecStep impl infos)
        (s3, List.replicate (impl.fieldsInfo.map (fun p => RecordFieldInfo.new p.1 p.2)).length
          (FieldValue.Numeric (some 0))))
      (fun st => Res.bind (wByte st.1 FILE_TERMINATOR) Res.ok)))

/-! The typed extraction macro (src/lib.rs:102-112). -/

/-- Whether `v` is built by the variant whose tag is `t` (the macro's constructor
pattern `FieldValue::$expected_variant(value)`; `field_type` is precisely the
constructor tag of the value). -/
def FieldValue.isVariant (v : FieldValue) (t : FieldType) : Bool := v.field_type = t

/-- Model of extract_field_value! (src/lib.rs:102-112): the extracted value is
returned unprojected; a wrong variant is FieldTypeNotAsExpected with the actual type,
a decode error is propagated, a missing value is the macro's panic. -/
def extract_field_value (o : Option (Except Error FieldValue)) (expected : FieldType) :
    Res FieldValue :=
  match o with
  | some (.ok v) =>
    if v.isVariant expected then .ok v else .err (.FieldTypeNotAsExpected v.field_type)
  | some (.error e) => .err e
  | none => Res.crash "not enough members"

/-! The decoding engine (spec §4.4) and the per-variant decode rules (spec §4.3(b),
§3 null policy). Modules `reading` and `record` are not in the snapshot, so all
definitions in this section are modelled from the spec. -/

def isDigitB (b : Nat) : Bool := 48 ≤ b && b ≤ 57

/-- Drop leading space bytes. -/
def trimLead (bs : List Nat) : List Nat := bs.dropWhile (· = 32)

/-- Drop trailing space bytes. -/
def trimTrail (bs : List Nat) : List Nat := (bs.reverse.dropWhile (· = 32)).reverse

/-- Value of a most-significant-first ASCII digit string. -/
def parseNatB (bs : List Nat) : Nat := bs.foldl (fun a b => a * 10 + (b - 48)) 0

/-- String from raw bytes (code points). -/
def strOfBytes (bs : List Nat) : String := ⟨bs.map Char.ofNat⟩

def splitDotAux (acc : List Nat) : List Nat → List Nat × Option (List Nat)
  | [] => (acc.reverse, none)
  | b :: rest => if b = 46 then (acc.reverse, some rest) else splitDotAux (b :: acc) rest

/-- Split an ASCII number body at the first decimal point, if any. -/
def splitDot (bs : List Nat) : List Nat × Option (List Nat) := splitDotAux [] bs

/-- Modelled from the spec: §3/§4.3, the unsigned decimal body: integer digits,
optionally a point and fraction digits; anything else is the parse error. The value
is assembled with core rational operations so that terms evaluate in the kernel. -/
def parseUnsigned (u : List Nat) : Except Error ℚ :=
  let parts := splitDot u
  match parts.2 with
  | none =>
    if parts.1 ≠ [] ∧ parts.1.all isDigitB then
      .ok (mkRat (Int.ofNat (parseNatB parts.1)) 1)
    else .error .ParseFloatError
  | some fp =>
    if (parts.1 ++ fp).all isDigitB ∧ (parts.1 ≠ [] ∨ fp ≠ []) then
      .ok (mkRat (Int.ofNat (parseNatB parts.1 * 10 ^ fp.length + parseNatB fp))
        (10 ^ fp.length))
    else .error .ParseFloatError

/-- Strip a leading minus sign, remembering whether one was present. -/
def signSplit (t : List Nat) : Bool × List Nat :=
  match t with
  | [] => (false, [])
  | b :: r => if b = 45 then (true, r) else (false, b :: r)

/-- Modelled from the spec: §3/§4.3, Numeric and Float decode. Blank, all-asterisk or
digitless trimmed content is null; otherwise optional minus sign then the unsigned
decimal body; malformed non-blank content is the parse error. -/
def parseRat (window : List Nat) : Except Error (Option ℚ) :=
  let t := trimTrail (trimLead window)
  if t.isEmpty then .ok none
  else if t.all (· = 42) then .ok none
  else if t.all (fun b => !isDigitB b) then .ok none
  else
    let su := signSplit t
    (parseUnsigned su.2).map (fun q => some (if su.1 then Rat.neg q else q))

/-- Modelled from the spec: §3/§4.3, Date decode: blank is null, 8 digits are the
YYYYMMDD triple, malformed non-blank content is InvalidDate. -/
def parseDate (window : List Nat) : Except Error (Option DateVal) :=
  let t := trimTrail (trimLead window)
  if t.isEmpty then .ok none
  else if t.length = 8 ∧ t.all isDigitB then
    .ok (some ⟨parseNatB (t.take 4), parseNatB ((t.drop 4).take 2), parseNatB (t.drop 6)⟩)
  else .error .InvalidDate

/-- Modelled from the spec: §4.3(b), decode of one field's raw window by type. -/
def decodeValue (t : FieldType) (window : List Nat) : Except Error FieldValue :=
  match t with
  | .Character =>
    let c := trimTrail window
    .ok (.Character (if c.isEmpty then none else some (strOfBytes c)))
  | .Numeric => (parseRat window).map FieldValue.Numeric
  | .Float => (parseRat window).map FieldValue.Float
  | .Date => (parseDate window).map FieldValue.Date
  | .Logical =>
    let c := trimTrail (trimLead window)
    .ok (.Logical (match c with
      | [b] =>
        if b = 89 || b = 121 || b = 84 || b = 116 then some true
        else if b = 78 || b = 110 || b = 70 || b = 102 then some false
        else none
      | _ => none))

/-- Little-endian value of a byte list. -/
def readLE (bs : List Nat) : Nat := bs.foldr (fun b acc => b + 256 * acc) 0

/-- Modelled from the spec: §4.4/§6, header decode: truncated input is an io error,
otherwise read record count and the two sizes at their fixed offsets. -/
def readHeader (bs : List Nat) : Except Error (Header × List Nat) :=
  if 32 ≤ bs.length then
    .ok (⟨readLE ((bs.drop 4).take 4), readLE ((bs.drop 8).take 2),
          readLE ((bs.drop 10).take 2)⟩, bs.drop 32)
  else .error .IoError

/-- Modelled from the spec: §4.2, tag byte to field type; unknown tags are
InvalidFieldType. -/
def parseTag (b : Nat) : Except Error FieldType :=
  if b = 67 then .ok .Character
  else if b = 78 then .ok .Numeric
  else if b = 70 then .ok .Float
  else if b = 68 then .ok .Date
  else if b = 76 then .ok .Logical
  else .error (.InvalidFieldType b)

/-- Modelled from the spec: §4.2/§6, decode of one 32-byte descriptor entry. -/
def parseDesc (b32 : List Nat) : Except Error RecordFieldInfo :=
  match parseTag (b32.getD 11 0) with
  | .error e => .error e
  | .ok t => .ok ⟨strOfBytes ((b32.take 11).takeWhile (· ≠ 0)), t, b32.getD 16 0⟩

/-- Modelled from the spec: §4.2/§4.4, the descriptor table is read entry by entry
until the sentinel byte 0x0D; fuel is the remaining input length. -/
def readInfos : Nat → List Nat → Except Error (List RecordFieldInfo × List Nat)
  | 0, _ => .error .IoError
  | _ + 1, [] => .error .IoError
  | fuel + 1, b :: bs =>
    if b = 13 then .ok ([], bs)
    else if 32 ≤ (b :: bs).length then
      match parseDesc ((b :: bs).take 32) with
      | .error e => .error e
      | .ok i =>
        match readInfos fuel ((b :: bs).drop 32) with
        | .error e => .error e
        | .ok (is, rest) => .ok (i :: is, rest)
    else .error .IoError

/-- Modelled from the spec: §4.4, decode the fields of one record in schema order,
slicing each field's declared length off the input. -/
def readFields (infos : List RecordFieldInfo) (bs : List Nat) :
    Except Error (Record × List Nat) :=
  match infos with
  | [] => .ok ([], bs)
  | i :: is =>
    if i.field_length ≤ bs.length then
      match decodeValue i.field_type (bs.take i.field_length) with
      | .error e => .error e
      | .ok v =>
        match readFields is (bs.drop i.field_length) with
        | .error e => .error e
        | .ok (ps, rest) => .ok ((i.name, v) :: ps, rest)
    else .error .IoError

/-- Modelled from the spec: §4.4/§6, one record slot: the deletion flag byte is
inspected and skipped, then the fields are decoded. -/
def readRecord (infos : List RecordFieldInfo) (bs : List Nat) :
    Except Error (Record × List Nat) :=
  match bs with
  | [] => .error .IoError
  | _flag :: rest => readFields infos rest

/-- Modelled from the spec: §4.4, read exactly the header's record count of records. -/
def readRecords (infos : List RecordFieldInfo) : Nat → List Nat → Except Error (List Record)
  | 0, _ => .ok []
  | n + 1, bs =>
    match readRecord infos bs with
    | .error e => .error e
    | .ok (r0, rest) =>
      match readRecords infos n rest with
      | .error e => .error e
      | .ok rs => .ok (r0 :: rs)

/-- Modelled from the spec: §4.4, the whole Reader pipeline on a byte string: header,
descriptor table up to the sentinel, then the records. -/
def readFile (bs : List Nat) : Except Error (List Record) :=
  match readHeader bs with
  | .error e => .error e
  | .ok (hdr, r1) =>
    match readInfos r1.length r1 with
    | .error e => .error e
    | .ok (infos, r2) => readRecords infos hdr.num_records r2

/-! Definitions used by the theorem statements. -/

/-- Bytes the writer emits for one field of one record: the value's own bytes followed
by space padding up to the descriptor length. -/
def fieldBytes (r0 : Record) (p : String × RecordFieldInfo) : List Nat :=
  match lookupF p.1 r0 with
  | none => []
  | some v => v.bytes ++ List.replicate (p.2.field_length - v.bytes.length) 32

/-- Bytes the writer emits for one record: deletion flag then each padded field. -/
def recordBytes (names : List String) (infos : List RecordFieldInfo) (r0 : Record) :
    List Nat :=
  32 :: ((names.zip infos).map (fieldBytes r0)).flatten

/-- Encoded size of the value a record holds for a field name (0 when absent). -/
def sizeOfIn (r0 : Record) (nm : String) : Nat :=
  ((lookupF nm r0).map FieldValue.size_in_bytes).getD 0

/-- Maximum encoded size of a column across a record set. -/
def maxSizeOf (rs : List Record) (nm : String) : Nat :=
  rs.foldl (fun a r0 => max a (sizeOfIn r0 nm)) 0

/-- Boolean no-duplicates check on a name list. -/
def nodupB : List String → Bool
  | [] => true
  | x :: xs => !xs.contains x && nodupB xs

/-- A name that survives the descriptor name slot byte-exactly: at most 10 chars, all
printable ASCII. -/
def validNameB (nm : String) : Bool :=
  nm.length ≤ 10 && nm.data.all (fun c => 31 < c.toNat && c.toNat < 127)

/-- The denominator divides a power of ten (true of the denominator of every double). -/
def decFinB (q : ℚ) : Bool := 10 ^ decExp q % q.den == 0

/-- A value the codec round-trips byte-exactly: nulls always; Character values that
are nonempty ASCII with no trailing space and fit a field; Numeric/Float values with
decimally-finite denominator that fit a field; Date triples within print range. -/
def canonValB : FieldValue → Bool
  | .Character none => true
  | .Character (some st) =>
    !st.data.isEmpty && st.data.length ≤ 255
      && st.data.all (fun c => 0 < c.toNat && c.toNat < 128)
      && !((st.data.map Char.toNat).getLast? = some 32)
  | .Numeric none => true
  | .Numeric (some q) => decFinB q && (ratBytes q).length ≤ 255
  | .Float none => true
  | .Float (some q) => decFinB q && (ratBytes q).length ≤ 255
  | .Date none => true
  | .Date (some d) => d.year < 10000 && d.month < 100 && d.day < 100
  | .Logical _ => true

/-- Every binding of the record has a valid name and a canonical value. -/
def recCanonB (r0 : Record) : Bool := r0.all (fun p => validNameB p.1 && canonValB p.2)

/-- The record has the same field names and column types, in the same order, as the
first record. -/
def sameShapeB (first r0 : Record) : Bool :=
  r0.map Prod.fst == first.map Prod.fst
    && r0.map (fun p => p.2.field_type) == first.map (fun p => p.2.field_type)

/-- Consistent schema (claim hypothesis): distinct field names, and every record
shares the first record's field set, types and order. -/
def consistentB (first : Record) (rest : List Record) : Bool :=
  nodupB (first.map Prod.fst) && rest.all (sameShapeB first)

/-- Field order Writer::write derives: the first record's keys (writing.rs:58). -/
def fieldOrderOf (records : List Record) : List String :=
  (records.headD []).map Prod.fst

/-- Bytes held by an ok outcome's sink (empty otherwise). -/
def Res.sinkBytes : Res Sink → List Nat
  | .ok s => s.written
  | _ => []

/-- The field infos Writer::write finalizes, described per column: the first record's
name and type, and the maximum encoded size of the column across all records. -/
def specInfos (first : Record) (rest : List Record) : List RecordFieldInfo :=
  first.map (fun p => ⟨p.1, p.2.field_type, maxSizeOf (first :: rest) p.1⟩)

/-- Decidable equality for decode outcomes, so witnesses can evaluate by `decide`. -/
instance {ε α : Type} [DecidableEq ε] [DecidableEq α] : DecidableEq (Except ε α) := fun x y =>
  match x, y with
  | .ok a, .ok b => decidable_of_iff (a = b) (by simp)
  | .error a, .error b => decidable_of_iff (a = b) (by simp)
  | .ok _, .error _ => isFalse (by simp)
  | .error _, .ok _ => isFalse (by simp)

/-! Concrete fixtures used by the closed claim instances below. -/

/-- A typed single-Character-column schema: the record type is the string payload
itself (the AlbumRecord pattern of tests/tests.rs, reduced to one field). -/
def charImpl : DBaseImpl String :=
  ⟨[("name", FieldType.Character)],
   fun r0 _ => [r0.length],
   fun r0 _ => [FieldValue.Character (some r0)]⟩

/-- A typed schema whose declared type (Character) disagrees with the runtime value
type (Numeric) every record supplies. -/
def mismatchImpl : DBaseImpl Unit :=
  ⟨[("a", FieldType.Character)],
   fun _ _ => [1],
   fun _ _ => [FieldValue.Numeric (some 0)]⟩

/-- A 256-character string: one byte over the u8::MAX field-size limit. -/
def longStr : String := ⟨List.replicate 256 (Char.ofNat 97)⟩

/-- A typed schema whose records supply a 256-byte Character value. -/
def longImpl : DBaseImpl Unit :=
  ⟨[("a", FieldType.Character)],
   fun _ _ => [0],
   fun _ _ => [FieldValue.Character (some longStr)]⟩

/-- First example record: an ASCII name and the decimal price 9.99. -/
def rsY1 : Record :=
  [("Name", FieldValue.Character (some "Ab")), ("P", FieldValue.Numeric (some (mkRat 999 100)))]

/-- Second example record, same schema, negative integer price. -/
def rsY2 : Record :=
  [("Name", FieldValue.Character (some "Qrst")), ("P", FieldValue.Numeric (some (mkRat (-10) 1)))]

/-- Bytes Writer::write emits for the single record {"A": Character "ab"}. -/
def w2bytes : List Nat :=
  [3, 0, 0, 0, 1, 0, 0, 0, 65, 0, 2, 0] ++ List.replicate 20 0
    ++ [65] ++ List.replicate 10 0 ++ [67, 0, 0, 0, 0, 2, 0] ++ List.replicate 14 0
    ++ [13, 32, 97, 98, 26]

/-- Bytes Writer::write_records emits for the one-record input ["ab"] of the
single-Character schema. -/
def w2rbytes : List Nat :=
  [3, 0, 0, 0, 1, 0, 0, 0, 65, 0, 2, 0] ++ List.replicate 20 0
    ++ [110, 97, 109, 101] ++ List.replicate 7 0 ++ [67, 0, 0, 0, 0, 2, 0]
    ++ List.replicate 14 0 ++ [13, 32, 97, 98, 26]

/-- Bytes Writer::write_records emits for ["a"] on a sink that never fails. -/
def c6clean : List Nat :=
  [3, 0, 0, 0, 1, 0, 0, 0, 65, 0, 1, 0] ++ List.replicate 20 0
    ++ [110, 97, 109, 101] ++ List.replicate 7 0 ++ [67, 0, 0, 0, 0, 1, 0]
    ++ List.replicate 14 0 ++ [13, 32, 97, 26]

/-- Bytes Writer::write_records emits for ["a"] on a sink whose one io failure hits
exactly the descriptor-terminator byte: the 0x0D is silently missing. -/
def c6lost : List Nat :=
  [3, 0, 0, 0, 1, 0, 0, 0, 65, 0, 1, 0] ++ List.replicate 20 0
    ++ [110, 97, 109, 101] ++ List.replicate 7 0 ++ [67, 0, 0, 0, 0, 1, 0]
    ++ List.replicate 14 0 ++ [32, 97, 26]

/-- Bytes Writer::write emits for the single record {"A": Logical null}. -/
def layoutBytes : List Nat :=
  [3, 0, 0, 0, 1, 0, 0, 0, 65, 0, 0, 0] ++ List.replicate 20 0
    ++ [65] ++ List.replicate 10 0 ++ [76, 0, 0, 0, 0, 0, 0] ++ List.replicate 14 0
    ++ [13, 32, 26]

set_option maxRecDepth 100000

/-! Basic lemmas about sinks and successful emission. -/

theorem wByte_noFail (w : List Nat) (b : Nat) : wByte ⟨w, none⟩ b = .ok ⟨w ++ [b], none⟩ := by
  simp [wByte, Sink.writeByte]

theorem wBytes_noFail (bs : List Nat) : ∀ w : List Nat,
    wBytes ⟨w, none⟩ bs = .ok ⟨w ++ bs, none⟩ := by
  induction bs with
  | nil => intro w; simp [wBytes]
  | cons b rest ih =>
    intro w
    simp [wBytes, wByte_noFail, Res.bind, ih (w ++ [b])]

theorem write_to_noFail (v : FieldValue) (w : List Nat) :
    v.write_to ⟨w, none⟩ = .ok (⟨w ++ v.bytes, none⟩, v.bytes.length) := by
  simp [FieldValue.write_to, wBytes_noFail, Res.bind]

/-! Decimal digits: the fueled printer agrees with `Nat.digits 10`, and parsing
inverts printing. -/

theorem digitsRevAux_eq : ∀ fuel n : Nat, n ≤ fuel → digitsRevAux fuel n = Nat.digits 10 n := by
  intro fuel
  induction fuel with
  | zero => intro n h; interval_cases n; simp [digitsRevAux]
  | succ f ih =>
    intro n h
    match n with
    | 0 => simp [digitsRevAux]
    | m + 1 =>
      rw [digitsRevAux, Nat.digits_def' (by norm_num : (1:ℕ) < 10) (Nat.succ_pos m)]
      rw [ih ((m + 1) / 10) ?_]
      have := Nat.div_lt_self (Nat.succ_pos m) (by norm_num : (1:ℕ) < 10)
      omega

theorem decDigits_eq (n : Nat) : decDigits n = Nat.digits 10 n :=
  digitsRevAux_eq n n le_rfl

theorem decDigits_lt (n : Nat) : ∀ d ∈ decDigits n, d < 10 := by
  intro d hd
  rw [decDigits_eq] at hd
  exact Nat.digits_lt_base (by norm_num) hd

theorem decDigits_len_le (n k : Nat) (h : n < 10 ^ k) : (decDigits n).length ≤ k := by
  rw [decDigits_eq]
  by_cases hn : n = 0
  · simp [hn]
  by_contra hlen
  push_neg at hlen
  have h1 : 10 ^ (Nat.digits 10 n).length ≤ 10 * n :=
    Nat.base_pow_length_digits_le 10 n (by norm_num) hn
  have h2 : 10 ^ (k + 1) ≤ 10 ^ (Nat.digits 10 n).length :=
    Nat.pow_le_pow_right (by norm_num) hlen
  have : 10 ^ k ≤ n := by
    have := le_trans h2 h1
    rw [pow_succ] at this
    omega
  omega

theorem parseNatB_append (xs ys : List Nat) :
    parseNatB (xs ++ ys) = ys.foldl (fun a b => a * 10 + (b - 48)) (parseNatB xs) := by
  simp [parseNatB, List.foldl_append]

theorem foldl_digits_acc (l : List Nat) : ∀ a : Nat,
    l.reverse.foldl (fun x d => x * 10 + d) a = Nat.ofDigits 10 l + a * 10 ^ l.length := by
  induction l with
  | nil => intro a; simp [Nat.ofDigits]
  | cons d t ih =>
    intro a
    rw [List.reverse_cons, List.foldl_append, ih a]
    simp only [List.foldl_cons, List.foldl_nil, Nat.ofDigits_cons, List.length_cons]
    ring

theorem parseNatB_digits_map (ds : List Nat) :
    parseNatB (ds.map (· + 48)) = ds.foldl (fun a d => a * 10 + d) 0 := by
  simp [parseNatB, List.foldl_map]

theorem parseNatB_natBytes (n : Nat) : parseNatB (natBytes n) = n := by
  by_cases hn : n = 0
  · simp [hn, natBytes, parseNatB]
  · rw [natBytes, if_neg hn, parseNatB_digits_map, foldl_digits_acc, decDigits_eq,
      Nat.ofDigits_digits]
    simp

theorem parseNatB_padBytes (k n : Nat) : parseNatB (padBytes k n) = n := by
  rw [padBytes, List.map_append, parseNatB_append]
  have h0 : parseNatB ((List.replicate (k - (decDigits n).length) 0).map (· + 48)) = 0 := by
    rw [parseNatB_digits_map]
    induction (k - (decDigits n).length) with
    | zero => simp
    | succ j ih => simpa [List.replicate_succ] using ih
  rw [h0]
  show parseNatB ((decDigits n).reverse.map (· + 48)) = n
  rw [parseNatB_digits_map, foldl_digits_acc, decDigits_eq, Nat.ofDigits_digits]
  simp

theorem padBytes_length (k n : Nat) (h : n < 10 ^ k) : (padBytes k n).length = k := by
  have := decDigits_len_le n k h
  simp [padBytes]
  omega

/-! Byte classification of printed numbers. -/

theorem natBytes_digits (n : Nat) : ∀ b ∈ natBytes n, 48 ≤ b ∧ b ≤ 57 := by
  intro b hb
  by_cases hn : n = 0
  · simp [natBytes, hn] at hb
    omega
  · rw [natBytes, if_neg hn] at hb
    simp only [List.mem_map, List.mem_reverse] at hb
    obtain ⟨d, hd, rfl⟩ := hb
    have := decDigits_lt n d hd
    omega

theorem padBytes_digits (k n : Nat) : ∀ b ∈ padBytes k n, 48 ≤ b ∧ b ≤ 57 := by
  intro b hb
  simp only [padBytes, List.mem_map, List.mem_append, List.mem_replicate,
    List.mem_reverse] at hb
  obtain ⟨d, hd, rfl⟩ := hb
  rcases hd with h | h
  · omega
  · have := decDigits_lt n d h
    omega

theorem natBytes_ne_nil (n : Nat) : natBytes n ≠ [] := by
  by_cases hn : n = 0
  · simp [natBytes, hn]
  · rw [natBytes, if_neg hn]
    have : decDigits n ≠ [] := by
      rw [decDigits_eq]
      exact Nat.digits_ne_nil_iff_ne_zero.mpr hn
    simpa using this

theorem padBytes_ne_nil (k n : Nat) (hk : k ≠ 0) : padBytes k n ≠ [] := by
  have h : (padBytes k n).length = k - (decDigits n).length + (decDigits n).length := by
    simp [padBytes]
  intro hcon
  rw [hcon] at h
  simp at h
  omega

theorem ratCore_mem (m k : Nat) : ∀ b ∈ ratCoreBytes m k, b = 46 ∨ (48 ≤ b ∧ b ≤ 57) := by
  intro b hb
  rw [ratCoreBytes] at hb
  by_cases hk : k = 0
  · rw [if_pos hk] at hb
    exact .inr (natBytes_digits m b hb)
  · rw [if_neg hk] at hb
    simp only [List.mem_append, List.mem_singleton] at hb
    rcases hb with (h | h) | h
    · exact .inr (natBytes_digits _ b h)
    · exact .inl h
    · exact .inr (padBytes_digits _ _ b h)

theorem ratCore_head (m k : Nat) :
    ∃ b l, ratCoreBytes m k = b :: l ∧ 48 ≤ b ∧ b ≤ 57 := by
  rw [ratCoreBytes]
  by_cases hk : k = 0
  · rw [if_pos hk]
    obtain ⟨b, l, h⟩ := List.exists_cons_of_ne_nil (natBytes_ne_nil m)
    exact ⟨b, l, h, natBytes_digits m b (h ▸ List.mem_cons_self b l)⟩
  · rw [if_neg hk]
    obtain ⟨b, l, h⟩ := List.exists_cons_of_ne_nil (natBytes_ne_nil (m / 10 ^ k))
    refine ⟨b, l ++ [46] ++ padBytes k (m % 10 ^ k), ?_, ?_⟩
    · simp [h]
    · exact natBytes_digits _ b (h ▸ List.mem_cons_self b l)

theorem getLast?_mem_digits {l : List Nat} (h : ∀ b ∈ l, 48 ≤ b ∧ b ≤ 57) (hne : l ≠ []) :
    ∃ b, l.getLast? = some b ∧ 48 ≤ b ∧ b ≤ 57 := by
  obtain ⟨b, hb⟩ := List.getLast?_isSome.mpr hne |> Option.isSome_iff_exists.mp
  exact ⟨b, hb, h b (List.mem_of_getLast?_eq_some hb)⟩

theorem ratCore_getLast (m k : Nat) :
    ∃ b, (ratCoreBytes m k).getLast? = some b ∧ 48 ≤ b ∧ b ≤ 57 := by
  rw [ratCoreBytes]
  by_cases hk : k = 0
  · rw [if_pos hk]
    exact getLast?_mem_digits (natBytes_digits m) (natBytes_ne_nil m)
  · rw [if_neg hk]
    obtain ⟨b, hb, hd⟩ :=
      getLast?_mem_digits (padBytes_digits k (m % 10 ^ k)) (padBytes_ne_nil k _ hk)
    refine ⟨b, ?_, hd⟩
    rw [List.getLast?_append, hb]
    rfl

/-! Facts about the printed form of a rational. -/

theorem ratBytes_neg_eq (q : ℚ) (hq : q < 0) :
    ratBytes q = 45 :: ratCoreBytes (q.num.natAbs * 10 ^ decExp q / q.den) (decExp q) := by
  rw [ratBytes]
  simp only [if_pos hq]

theorem ratBytes_nonneg_eq (q : ℚ) (hq : ¬ q < 0) :
    ratBytes q = ratCoreBytes (q.num.natAbs * 10 ^ decExp q / q.den) (decExp q) := by
  rw [ratBytes]
  simp only [if_neg hq]

theorem ratBytes_mem (q : ℚ) : ∀ b ∈ ratBytes q, b = 45 ∨ b = 46 ∨ (48 ≤ b ∧ b ≤ 57) := by
  intro b hb
  rw [ratBytes] at hb
  by_cases hq : q < 0
  · rw [if_pos hq] at hb
    rcases List.mem_cons.mp hb with h | h
    · exact .inl h
    · rcases ratCore_mem _ _ b h with h' | h'
      · exact .inr (.inl h')
      · exact .inr (.inr h')
  · rw [if_neg hq] at hb
    rcases ratCore_mem _ _ b hb with h' | h'
    · exact .inr (.inl h')
    · exact .inr (.inr h')

theorem ratBytes_head (q : ℚ) :
    ∃ b l, ratBytes q = b :: l ∧ b ≠ 32 ∧ b ≠ 42 := by
  by_cases hq : q < 0
  · exact ⟨45, _, ratBytes_neg_eq q hq, by omega, by omega⟩
  · obtain ⟨b, l, h, h1, h2⟩ := ratCore_head (q.num.natAbs * 10 ^ decExp q / q.den) (decExp q)
    exact ⟨b, l, (ratBytes_nonneg_eq q hq).trans h, by omega, by omega⟩

theorem ratBytes_getLast (q : ℚ) :
    ∃ b, (ratBytes q).getLast? = some b ∧ 48 ≤ b ∧ b ≤ 57 := by
  obtain ⟨b, hb, hd⟩ := ratCore_getLast (q.num.natAbs * 10 ^ decExp q / q.den) (decExp q)
  by_cases hq : q < 0
  · refine ⟨b, ?_, hd⟩
    rw [ratBytes_neg_eq q hq]
    rw [List.getLast?_cons, hb]
    rfl
  · exact ⟨b, (ratBytes_nonneg_eq q hq) ▸ hb, hd⟩

/-! Trimming lemmas. -/

theorem dropWhile_eq_of_head (l : List Nat) (h : l.head? ≠ some 32) :
    l.dropWhile (· = 32) = l := by
  match l with
  | [] => rfl
  | b :: rest =>
    rw [List.dropWhile_cons]
    simp only [List.head?] at h
    have : ¬ b = 32 := fun hcon => h (by rw [hcon])
    simp [this]

theorem dropWhile_replicate32 (j : Nat) :
    (List.replicate j 32).dropWhile (· = (32:Nat)) = [] := by
  induction j with
  | zero => rfl
  | succ n ih => simpa [List.replicate_succ, List.dropWhile_cons] using ih

theorem trimLead_of_head (l : List Nat) (h : l.head? ≠ some 32) : trimLead l = l :=
  dropWhile_eq_of_head l h

theorem trimTrail_of_getLast (l : List Nat) (h : l.getLast? ≠ some 32) : trimTrail l = l := by
  rw [trimTrail, dropWhile_eq_of_head, List.reverse_reverse]
  rwa [List.head?_reverse]

theorem trimTrail_append_rep (xs : List Nat) (j : Nat) :
    trimTrail (xs ++ List.replicate j 32) = trimTrail xs := by
  rw [trimTrail, trimTrail, List.reverse_append, List.reverse_replicate]
  congr 1
  induction j with
  | zero => rfl
  | succ n ih => simpa [List.replicate_succ, List.dropWhile_cons] using ih

theorem trimTrail_replicate (j : Nat) : trimTrail (List.replicate j 32) = [] := by
  have := trimTrail_append_rep [] j
  simpa [trimTrail] using this

/-! Splitting at the decimal point. -/

theorem splitDotAux_no_dot (l : List Nat) : ∀ acc, (∀ b ∈ l, b ≠ 46) →
    splitDotAux acc l = (acc.reverse ++ l, none) := by
  induction l with
  | nil => intro acc _; simp [splitDotAux]
  | cons b rest ih =>
    intro acc h
    rw [splitDotAux, if_neg (h b (List.mem_cons_self b rest))]
    rw [ih (b :: acc) (fun x hx => h x (List.mem_cons_of_mem b hx))]
    simp

theorem splitDotAux_dot (ds : List Nat) : ∀ acc r, (∀ b ∈ ds, b ≠ 46) →
    splitDotAux acc (ds ++ 46 :: r) = (acc.reverse ++ ds, some r) := by
  induction ds with
  | nil => intro acc r _; simp [splitDotAux]
  | cons b rest ih =>
    intro acc r h
    rw [List.cons_append, splitDotAux, if_neg (h b (List.mem_cons_self b rest))]
    rw [ih (b :: acc) r (fun x hx => h x (List.mem_cons_of_mem b hx))]
    simp

theorem splitDot_ratCore_zero (m : Nat) : splitDot (ratCoreBytes m 0) = (natBytes m, none) := by
  rw [splitDot, ratCoreBytes, if_pos rfl]
  have := splitDotAux_no_dot (natBytes m) []
    (fun b hb => by have := natBytes_digits m b hb; omega)
  simpa using this

theorem splitDot_ratCore_pos (m k : Nat) (hk : k ≠ 0) :
    splitDot (ratCoreBytes m k) =
      (natBytes (m / 10 ^ k), some (padBytes k (m % 10 ^ k))) := by
  rw [splitDot, ratCoreBytes, if_neg hk, List.append_assoc, List.singleton_append]
  have := splitDotAux_dot (natBytes (m / 10 ^ k)) [] (padBytes k (m % 10 ^ k))
    (fun b hb => by have := natBytes_digits _ b hb; omega)
  simpa using this

/-! The scaled-numerator reconstruction. -/

theorem decFinB_dvd (q : ℚ) (h : decFinB q = true) : q.den ∣ 10 ^ decExp q := by
  rw [decFinB] at h
  exact Nat.dvd_of_mod_eq_zero (by exact_mod_cast Nat.beq_eq_true_eq _ _ ▸ h)

theorem mkRat_scaled (q : ℚ) (k : Nat) (hd : q.den ∣ 10 ^ k) (hq : 0 ≤ q) :
    mkRat (Int.ofNat (q.num.natAbs * 10 ^ k / q.den)) (10 ^ k) = q := by
  have hden0 : (q.den : ℚ) ≠ 0 := by
    exact_mod_cast q.den_nz
  have h10 : ((10 ^ k : ℕ) : ℚ) ≠ 0 := by
    positivity
  have hdvd : q.den ∣ q.num.natAbs * 10 ^ k := Dvd.dvd.mul_left hd _
  have hnum : ((q.num.natAbs : ℚ)) = (q.num : ℚ) := by
    have h0 : 0 ≤ q.num := Rat.num_nonneg.mpr hq
    have habs : (q.num.natAbs : ℤ) = q.num := Int.natAbs_of_nonneg h0
    calc ((q.num.natAbs : ℕ) : ℚ) = ((q.num.natAbs : ℤ) : ℚ) := by
          rw [Int.cast_natCast]
      _ = (q.num : ℚ) := by rw [habs]
  rw [Rat.mkRat_eq_div, Int.ofNat_eq_natCast, Int.cast_natCast]
  rw [Nat.cast_div hdvd hden0, Nat.cast_mul, hnum]
  rw [div_div, mul_comm (q.den : ℚ) _, mul_comm (q.num : ℚ) _]
  rw [mul_div_mul_left _ _ h10]
  exact Rat.num_div_den q

theorem natBytes_all_digits (n : Nat) : (natBytes n).all isDigitB = true := by
  rw [List.all_eq_true]
  intro b hb
  have := natBytes_digits n b hb
  simp [isDigitB]
  omega

theorem padBytes_all_digits (k n : Nat) : (padBytes k n).all isDigitB = true := by
  rw [List.all_eq_true]
  intro b hb
  have := padBytes_digits k n b hb
  simp [isDigitB]
  omega

theorem parseUnsigned_ratCore (m k : Nat) :
    parseUnsigned (ratCoreBytes m k) = .ok (mkRat (Int.ofNat m) (10 ^ k)) := by
  by_cases hk : k = 0
  · subst hk
    rw [parseUnsigned, splitDot_ratCore_zero]
    show (if natBytes m ≠ [] ∧ (natBytes m).all isDigitB = true then
        Except.ok (mkRat (Int.ofNat (parseNatB (natBytes m))) 1)
      else Except.error Error.ParseFloatError) = _
    rw [if_pos ⟨natBytes_ne_nil m, natBytes_all_digits m⟩, parseNatB_natBytes, pow_zero]
  · rw [parseUnsigned, splitDot_ratCore_pos m k hk]
    have hmod : m % 10 ^ k < 10 ^ k := Nat.mod_lt _ (Nat.pos_pow_of_pos k (by norm_num))
    show (if (natBytes (m / 10 ^ k) ++ padBytes k (m % 10 ^ k)).all isDigitB = true ∧
            (natBytes (m / 10 ^ k) ≠ [] ∨ padBytes k (m % 10 ^ k) ≠ []) then
        Except.ok (mkRat
          (Int.ofNat (parseNatB (natBytes (m / 10 ^ k)) * 10 ^ (padBytes k (m % 10 ^ k)).length
            + parseNatB (padBytes k (m % 10 ^ k))))
          (10 ^ (padBytes k (m % 10 ^ k)).length))
      else Except.error Error.ParseFloatError) = _
    rw [if_pos ⟨by rw [List.all_append]; simp [natBytes_all_digits, padBytes_all_digits],
      Or.inl (natBytes_ne_nil _)⟩]
    rw [parseNatB_natBytes, parseNatB_padBytes, padBytes_length k _ hmod, Nat.div_add_mod']

theorem signSplit_cons45 (r : List Nat) : signSplit (45 :: r) = (true, r) := by
  simp [signSplit]

theorem signSplit_cons_ne (b : Nat) (r : List Nat) (h : b ≠ 45) :
    signSplit (b :: r) = (false, b :: r) := by
  simp [signSplit, h]

theorem parseRat_body (w t : List Nat) (hw : trimTrail (trimLead w) = t)
    (hne : t.isEmpty = false) (h42 : t.all (· = 42) = false)
    (hdig : t.all (fun b => !isDigitB b) = false) :
    parseRat w = (parseUnsigned (signSplit t).2).map
      (fun q' => some (if (signSplit t).1 then Rat.neg q' else q')) := by
  rw [parseRat]
  simp only [hw, hne, h42, hdig, Bool.false_eq_true, if_false]

theorem parseRat_ratBytes (q : ℚ) (hf : decFinB q = true) (j : Nat) :
    parseRat (ratBytes q ++ List.replicate j 32) = .ok (some q) := by
  have hdvd := decFinB_dvd q hf
  obtain ⟨b0, l0, hhead, hb32, hb42⟩ := ratBytes_head q
  obtain ⟨bl, hbl, hbl48, hbl57⟩ := ratBytes_getLast q
  have ht : trimTrail (trimLead (ratBytes q ++ List.replicate j 32)) = ratBytes q := by
    have h1 : trimLead (ratBytes q ++ List.replicate j 32)
        = ratBytes q ++ List.replicate j 32 := by
      apply trimLead_of_head
      rw [hhead, List.cons_append]
      intro hc
      exact hb32 (Option.some.inj hc)
    rw [h1, trimTrail_append_rep]
    apply trimTrail_of_getLast
    rw [hbl]
    intro hc
    have := Option.some.inj hc
    omega
  have hne : (ratBytes q).isEmpty = false := by
    rw [hhead]
    rfl
  have h42 : (ratBytes q).all (· = 42) = false := by
    rw [hhead, List.all_cons]
    simp [hb42]
  have hdig : (ratBytes q).all (fun b => !isDigitB b) = false := by
    rw [List.all_eq_false]
    refine ⟨bl, List.mem_of_getLast?_eq_some hbl, ?_⟩
    simp [isDigitB]
    omega
  rw [parseRat_body _ _ ht hne h42 hdig]
  by_cases hq : q < 0
  · rw [ratBytes_neg_eq q hq, signSplit_cons45]
    rw [parseUnsigned_ratCore]
    have hqn : (0:ℚ) ≤ -q := by linarith
    have hden : (-q).den = q.den := Rat.neg_den q
    have hnum : (-q).num.natAbs = q.num.natAbs := by
      rw [Rat.neg_num, Int.natAbs_neg]
    have := mkRat_scaled (-q) (decExp q) (by rw [hden]; exact hdvd) hqn
    rw [hnum, hden] at this
    rw [Except.map, this]
    have hnn : Rat.neg (-q) = q := by
      show -(-q) = q
      exact neg_neg q
    rw [if_pos rfl, hnn]
  · have hcore := ratBytes_nonneg_eq q hq
    obtain ⟨c0, cl, hc, hc48, hc57⟩ :=
      ratCore_head (q.num.natAbs * 10 ^ decExp q / q.den) (decExp q)
    rw [hcore, hc, signSplit_cons_ne c0 cl (by omega), ← hc]
    rw [parseUnsigned_ratCore]
    have hqn : (0:ℚ) ≤ q := le_of_not_lt hq
    have := mkRat_scaled q (decExp q) hdvd hqn
    rw [Except.map, this]
    rw [if_neg (by simp)]

/-! Per-variant decode-of-encode lemmas. -/

theorem strOfBytes_of_string (s : String) : strOfBytes (s.data.map Char.toNat) = s := by
  rw [strOfBytes, List.map_map]
  have : (Char.ofNat ∘ Char.toNat) = id := by
    funext c
    exact Char.ofNat_toNat c
  rw [this, List.map_id]

theorem trimLead_replicate (j : Nat) : trimLead (List.replicate j 32) = [] :=
  dropWhile_replicate32 j

theorem decodeChar_some (s : String) (j : Nat)
    (hne : s.data.isEmpty = false)
    (hlast : (s.data.map Char.toNat).getLast? ≠ some 32) :
    decodeValue .Character (s.data.map Char.toNat ++ List.replicate j 32)
      = .ok (.Character (some s)) := by
  rw [decodeValue]
  have ht : trimTrail (s.data.map Char.toNat ++ List.replicate j 32)
      = s.data.map Char.toNat := by
    rw [trimTrail_append_rep]
    exact trimTrail_of_getLast _ hlast
  rw [ht]
  have hlen : (s.data.map Char.toNat).isEmpty = false := by
    cases hd : s.data with
    | nil => rw [hd] at hne; simp at hne
    | cons a l => simp [hd]
  rw [hlen]
  simp only [Bool.false_eq_true, if_false, strOfBytes_of_string]

theorem decodeChar_none (L : Nat) :
    decodeValue .Character (List.replicate L 32) = .ok (.Character none) := by
  rw [decodeValue]
  have := trimTrail_replicate L
  rw [this]
  rfl

theorem parseRat_blank (L : Nat) : parseRat (List.replicate L 32) = .ok none := by
  rw [parseRat]
  have h1 : trimLead (List.replicate L 32) = [] := trimLead_replicate L
  rw [h1]
  rfl

theorem parseDate_blank (L : Nat) : parseDate (List.replicate L 32) = .ok none := by
  rw [parseDate]
  have h1 : trimLead (List.replicate L 32) = [] := trimLead_replicate L
  rw [h1]
  rfl

theorem dateVal_bytes_parse (d : DateVal) (j : Nat)
    (hy : d.year < 10000) (hm : d.month < 100) (hd : d.day < 100) :
    parseDate ((FieldValue.Date (some d)).bytes ++ List.replicate j 32)
      = .ok (some d) := by
  rw [FieldValue.bytes]
  rw [Nat.mod_eq_of_lt hy, Nat.mod_eq_of_lt hm, Nat.mod_eq_of_lt hd]
  have h4 : (padBytes 4 d.year).length = 4 := padBytes_length 4 _ (by omega)
  have h2m : (padBytes 2 d.month).length = 2 := padBytes_length 2 _ (by omega)
  have h2d : (padBytes 2 d.day).length = 2 := padBytes_length 2 _ (by omega)
  obtain ⟨y0, yl, hy0⟩ := List.exists_cons_of_ne_nil (padBytes_ne_nil 4 d.year (by omega))
  have hy0d := padBytes_digits 4 d.year y0 (hy0 ▸ List.mem_cons_self y0 yl)
  obtain ⟨l0, hl0, hl048, hl057⟩ :=
    getLast?_mem_digits (padBytes_digits 2 d.day) (padBytes_ne_nil 2 d.day (by omega))
  rw [parseDate]
  have hA : padBytes 4 d.year ++ padBytes 2 d.month ++ padBytes 2 d.day
      ++ List.replicate j 32
      = padBytes 4 d.year ++ (padBytes 2 d.month ++ (padBytes 2 d.day
        ++ List.replicate j 32)) := by
    simp [List.append_assoc]
  have ht : trimTrail (trimLead (padBytes 4 d.year ++ padBytes 2 d.month
      ++ padBytes 2 d.day ++ List.replicate j 32))
      = padBytes 4 d.year ++ padBytes 2 d.month ++ padBytes 2 d.day := by
    have h1 : trimLead (padBytes 4 d.year ++ padBytes 2 d.month ++ padBytes 2 d.day
        ++ List.replicate j 32) = padBytes 4 d.year ++ padBytes 2 d.month
        ++ padBytes 2 d.day ++ List.replicate j 32 := by
      apply trimLead_of_head
      rw [hA, hy0, List.cons_append]
      intro hc
      have := Option.some.inj hc
      omega
    rw [h1, trimTrail_append_rep]
    apply trimTrail_of_getLast
    rw [List.getLast?_append, List.getLast?_append, hl0]
    intro hc
    have := Option.some.inj hc
    omega
  rw [ht]
  have hlen : (padBytes 4 d.year ++ padBytes 2 d.month ++ padBytes 2 d.day).length = 8 := by
    simp [h4, h2m, h2d]
  have hdigs : (padBytes 4 d.year ++ padBytes 2 d.month ++ padBytes 2 d.day).all isDigitB
      = true := by
    simp only [List.all_append]
    simp [padBytes_all_digits]
  have hemp : (padBytes 4 d.year ++ padBytes 2 d.month ++ padBytes 2 d.day).isEmpty
      = false := by
    cases hv : padBytes 4 d.year ++ padBytes 2 d.month ++ padBytes 2 d.day with
    | nil => rw [hv] at hlen; simp at hlen
    | cons a l => simp
  rw [hemp]
  simp only [Bool.false_eq_true, if_false]
  rw [if_pos ⟨hlen, hdigs⟩]
  have htake : (padBytes 4 d.year ++ padBytes 2 d.month ++ padBytes 2 d.day).take 4
      = padBytes 4 d.year := by
    rw [List.append_assoc, List.take_append_of_le_length (by omega), List.take_of_length_le (by omega)]
  have hdrop4 : (padBytes 4 d.year ++ padBytes 2 d.month ++ padBytes 2 d.day).drop 4
      = padBytes 2 d.month ++ padBytes 2 d.day := by
    rw [List.append_assoc, List.drop_append_of_le_length (by omega)]
    rw [List.drop_of_length_le (by omega), List.nil_append]
  have htake2 : ((padBytes 4 d.year ++ padBytes 2 d.month ++ padBytes 2 d.day).drop 4).take 2
      = padBytes 2 d.month := by
    rw [hdrop4, List.take_append_of_le_length (by omega), List.take_of_length_le (by omega)]
  have hdrop6 : (padBytes 4 d.year ++ padBytes 2 d.month ++ padBytes 2 d.day).drop 6
      = padBytes 2 d.day := by
    have hsplit : ((padBytes 4 d.year ++ padBytes 2 d.month ++ padBytes 2 d.day).drop 4).drop 2
        = (padBytes 4 d.year ++ padBytes 2 d.month ++ padBytes 2 d.day).drop 6 := by
      rw [List.drop_drop]
    rw [← hsplit, hdrop4, List.drop_append_of_le_length (by omega)]
    rw [List.drop_of_length_le (by omega), List.nil_append]
  rw [htake, htake2, hdrop6, parseNatB_padBytes, parseNatB_padBytes, parseNatB_padBytes]

theorem decodeLogical_some (b : Bool) (j : Nat) :
    decodeValue .Logical ((FieldValue.Logical (some b)).bytes ++ List.replicate j 32)
      = .ok (.Logical (some b)) := by
  cases b
  · show decodeValue .Logical ([70] ++ List.replicate j 32) = .ok (.Logical (some false))
    rw [decodeValue]
    have ht : trimTrail (trimLead ([70] ++ List.replicate j 32)) = [70] := by
      rw [trimLead_of_head _ (by simp), trimTrail_append_rep]
      rfl
    rw [ht]
    rfl
  · show decodeValue .Logical ([84] ++ List.replicate j 32) = .ok (.Logical (some true))
    rw [decodeValue]
    have ht : trimTrail (trimLead ([84] ++ List.replicate j 32)) = [84] := by
      rw [trimLead_of_head _ (by simp), trimTrail_append_rep]
      rfl
    rw [ht]
    rfl

theorem decodeLogical_none (L : Nat) :
    decodeValue .Logical (List.replicate L 32) = .ok (.Logical none) := by
  rw [decodeValue]
  rw [trimLead_replicate, trimTrail]
  rfl

/-- Decoding the window the writer produced for a canonical value recovers the value. -/
theorem decodeValue_roundtrip (v : FieldValue) (L : Nat) (hc : canonValB v = true)
    (hL : v.size_in_bytes ≤ L) :
    decodeValue v.field_type (v.bytes ++ List.replicate (L - v.size_in_bytes) 32)
      = .ok v := by
  match v with
  | .Character none =>
    show decodeValue .Character ([] ++ List.replicate (L - 0) 32) = _
    rw [List.nil_append]
    exact decodeChar_none _
  | .Character (some s) =>
    simp only [canonValB, Bool.and_eq_true, Bool.not_eq_eq_eq_not, Bool.not_true,
      decide_eq_false_iff_not, decide_eq_true_eq] at hc
    exact decodeChar_some s _ (by simpa using hc.1.1.1) hc.2
  | .Numeric none =>
    show decodeValue .Numeric ([] ++ List.replicate (L - 0) 32) = _
    rw [List.nil_append, decodeValue, parseRat_blank]
    rfl
  | .Numeric (some q) =>
    simp only [canonValB, Bool.and_eq_true, decide_eq_true_eq] at hc
    show decodeValue .Numeric (ratBytes q ++ _) = _
    rw [decodeValue, parseRat_ratBytes q hc.1]
    rfl
  | .Float none =>
    show decodeValue .Float ([] ++ List.replicate (L - 0) 32) = _
    rw [List.nil_append, decodeValue, parseRat_blank]
    rfl
  | .Float (some q) =>
    simp only [canonValB, Bool.and_eq_true, decide_eq_true_eq] at hc
    show decodeValue .Float (ratBytes q ++ _) = _
    rw [decodeValue, parseRat_ratBytes q hc.1]
    rfl
  | .Date none =>
    show decodeValue .Date ([] ++ List.replicate (L - 0) 32) = _
    rw [List.nil_append, decodeValue, parseDate_blank]
    rfl
  | .Date (some d) =>
    simp only [canonValB, Bool.and_eq_true, decide_eq_true_eq] at hc
    rw [show (FieldValue.Date (some d)).field_type = .Date from rfl, decodeValue]
    rw [dateVal_bytes_parse d _ hc.1.1 hc.1.2 hc.2]
    rfl
  | .Logical none =>
    show decodeValue .Logical ([] ++ List.replicate (L - 0) 32) = _
    rw [List.nil_append]
    exact decodeLogical_none _
  | .Logical (some b) =>
    exact decodeLogical_some b _

/-! Helpers for the schema-inference passes. -/

theorem resMapM_ok {α β : Type} (l : List α) (f : α → Res β) (g : α → β)
    (h : ∀ a ∈ l, f a = .ok (g a)) : l.mapM f = .ok (l.map g) := by
  induction l with
  | nil => rfl
  | cons a t ih =>
    rw [List.mapM_cons, List.map_cons]
    rw [h a (List.mem_cons_self a t)]
    rw [ih (fun x hx => h x (List.mem_cons_of_mem a hx))]
    rfl

theorem exceptMapM_ok {α β : Type} (l : List α) (f : α → Except Error β) (g : α → β)
    (h : ∀ a ∈ l, f a = .ok (g a)) : l.mapM f = .ok (l.map g) := by
  induction l with
  | nil => rfl
  | cons a t ih =>
    rw [List.mapM_cons, List.map_cons]
    rw [h a (List.mem_cons_self a t)]
    rw [ih (fun x hx => h x (List.mem_cons_of_mem a hx))]
    rfl

theorem lookupF_cons_self (nm : String) (v : FieldValue) (r : Record) :
    lookupF nm ((nm, v) :: r) = some v := by
  simp [lookupF]

theorem lookupF_cons_ne (nm k : String) (v : FieldValue) (r : Record) (h : k ≠ nm) :
    lookupF nm ((k, v) :: r) = lookupF nm r := by
  simp [lookupF, h]

theorem nodupB_cons (x : String) (xs : List String) (h : nodupB (x :: xs) = true) :
    (¬ x ∈ xs) ∧ nodupB xs = true := by
  rw [nodupB, Bool.and_eq_true, Bool.not_eq_eq_eq_not, Bool.not_true] at h
  refine ⟨fun hmem => ?_, h.2⟩
  have h1 : xs.contains x = false := h.1
  have h2 : xs.elem x = true := List.elem_eq_true_of_mem hmem
  rw [show xs.contains x = xs.elem x from rfl, h2] at h1
  simp at h1

theorem lookupF_mem (nm : String) (r : Record) (v : FieldValue) (h : lookupF nm r = some v) :
    (nm, v) ∈ r := by
  induction r with
  | nil => simp [lookupF] at h
  | cons p rest ih =>
    rw [lookupF] at h
    by_cases hp : p.1 = nm
    · rw [if_pos hp] at h
      have : p = (nm, v) := by
        cases p
        simp at hp ⊢
        exact ⟨hp, Option.some.inj h⟩
      rw [← this]
      exact List.mem_cons_self p rest
    · rw [if_neg hp] at h
      exact List.mem_cons_of_mem p (ih h)

theorem mem_nodup_lookup (r : Record) (hnod : nodupB (r.map Prod.fst) = true) :
    ∀ p ∈ r, lookupF p.1 r = some p.2 := by
  induction r with
  | nil => intro p hp; simp at hp
  | cons q rest ih =>
    intro p hp
    obtain ⟨hq, hrest⟩ := nodupB_cons q.1 (rest.map Prod.fst) (by simpa using hnod)
    rcases List.mem_cons.mp hp with h | h
    · subst h
      rw [lookupF, if_pos rfl]
    · have hne : q.1 ≠ p.1 := by
        intro hcon
        exact hq (hcon ▸ List.mem_map_of_mem Prod.fst h)
      rw [lookupF, if_neg hne]
      exact ih hrest p h

theorem nodup_lookup_get (r : Record) (hnod : nodupB (r.map Prod.fst) = true)
    (j : Nat) (hj : j < r.length) :
    lookupF (r.get ⟨j, hj⟩).1 r = some (r.get ⟨j, hj⟩).2 :=
  mem_nodup_lookup r hnod _ (List.get_mem r j hj)

theorem resMapM_ok_inv {α β : Type} (l : List α) (f : α → Res β) :
    ∀ out : List β, l.mapM f = .ok out →
      out.length = l.length ∧
      ∀ j (hj : j < l.length) (hj2 : j < out.length),
        f (l.get ⟨j, hj⟩) = .ok (out.get ⟨j, hj2⟩) := by
  induction l with
  | nil =>
    intro out h
    rw [show (List.mapM f ([] : List α)) = Res.ok ([] : List β) from rfl] at h
    have hout : ([] : List β) = out := Res.ok.inj h
    subst hout
    exact ⟨rfl, fun j hj _ => absurd hj (by simp)⟩
  | cons a t ih =>
    intro out h
    rw [List.mapM_cons] at h
    match hfa : f a with
    | .err e => rw [hfa] at h; simp [Bind.bind, Res.bind] at h
    | .crash m => rw [hfa] at h; simp [Bind.bind, Res.bind] at h
    | .ok b =>
      rw [hfa] at h
      match hmt : t.mapM f with
      | .err e => rw [hmt] at h; simp [Bind.bind, Res.bind] at h
      | .crash m => rw [hmt] at h; simp [Bind.bind, Res.bind] at h
      | .ok bs =>
        rw [hmt] at h
        have hout : b :: bs = out := by
          have h' : Res.ok (b :: bs) = Res.ok out := h
          exact Res.ok.inj h'
        subst hout
        obtain ⟨hlen, hptr⟩ := ih bs hmt
        refine ⟨by simp [hlen], ?_⟩
        intro j hj hj2
        match j with
        | 0 => exact hfa
        | j' + 1 =>
          exact hptr j' (by simpa using hj) (by simpa using hj2)

theorem exceptMapM_ok_inv {α β : Type} (l : List α) (f : α → Except Error β) :
    ∀ out : List β, l.mapM f = .ok out →
      out.length = l.length ∧
      ∀ j (hj : j < l.length) (hj2 : j < out.length),
        f (l.get ⟨j, hj⟩) = .ok (out.get ⟨j, hj2⟩) := by
  induction l with
  | nil =>
    intro out h
    rw [show (List.mapM f ([] : List α)) = Except.ok ([] : List β) from rfl] at h
    have hout : ([] : List β) = out := Except.ok.inj h
    subst hout
    exact ⟨rfl, fun j hj _ => absurd hj (by simp)⟩
  | cons a t ih =>
    intro out h
    rw [List.mapM_cons] at h
    match hfa : f a with
    | .error e => rw [hfa] at h; simp [Bind.bind, Except.bind] at h
    | .ok b =>
      rw [hfa] at h
      match hmt : t.mapM f with
      | .error e => rw [hmt] at h; simp [Bind.bind, Except.bind] at h
      | .ok bs =>
        rw [hmt] at h
        have hout : b :: bs = out := by
          have h' : Except.ok (b :: bs) = Except.ok out := h
          exact Except.ok.inj h'
        subst hout
        obtain ⟨hlen, hptr⟩ := ih bs hmt
        refine ⟨by simp [hlen], ?_⟩
        intro j hj hj2
        match j with
        | 0 => exact hfa
        | j' + 1 =>
          exact hptr j' (by simpa using hj) (by simpa using hj2)

theorem buildFirstInfos_ok (first : Record)
    (h : ∀ p ∈ first, p.2.size_in_bytes ≤ 255) :
    buildFirstInfos first
      = .ok (first.map (fun p => ⟨p.1, p.2.field_type, p.2.size_in_bytes⟩)) := by
  apply exceptMapM_ok
  intro p hp
  rw [if_neg (by have := h p hp; omega)]
  rfl

theorem buildFirstInfos_ok_inv (first : Record) (infos0 : List RecordFieldInfo)
    (h : buildFirstInfos first = .ok infos0) :
    (∀ p ∈ first, p.2.size_in_bytes ≤ 255) ∧
    infos0 = first.map (fun p => ⟨p.1, p.2.field_type, p.2.size_in_bytes⟩) := by
  obtain ⟨hlen, hptr⟩ := exceptMapM_ok_inv first _ infos0 h
  have hsz : ∀ p ∈ first, p.2.size_in_bytes ≤ 255 := by
    intro p hp
    obtain ⟨⟨j, hj⟩, hget⟩ := List.mem_iff_get.mp hp
    have hj2 : j < infos0.length := by omega
    have hfj := hptr j hj hj2
    rw [hget] at hfj
    by_contra hcon
    rw [if_pos (by omega)] at hfj
    exact absurd hfj (by simp)
  refine ⟨hsz, ?_⟩
  apply List.ext_get (by simp [hlen])
  intro j hj hj2
  have hj3 : j < first.length := by simpa using hj2
  have hfj := hptr j hj3 hj
  rw [if_neg (by have := hsz _ (List.get_mem first j hj3); omega)] at hfj
  have heq := Except.ok.inj hfj
  rw [← heq, List.get_map]
  rfl

/-! Fold-of-maximum helpers. -/

theorem foldl_max_base (g : Record → Nat) (l : List Record) :
    ∀ a : Nat, a ≤ l.foldl (fun x r0 => max x (g r0)) a := by
  induction l with
  | nil => intro a; simp
  | cons r t ih =>
    intro a
    calc a ≤ max a (g r) := le_max_left _ _
      _ ≤ t.foldl (fun x r0 => max x (g r0)) (max a (g r)) := ih _

theorem foldl_max_mem (g : Record → Nat) (l : List Record) (r : Record) (hr : r ∈ l) :
    ∀ a : Nat, g r ≤ l.foldl (fun x r0 => max x (g r0)) a := by
  induction l with
  | nil => intro a; simp at hr
  | cons q t ih =>
    intro a
    rcases List.mem_cons.mp hr with h | h
    · subst h
      calc g r ≤ max a (g r) := le_max_right _ _
        _ ≤ t.foldl (fun x r0 => max x (g r0)) (max a (g r)) := foldl_max_base g t _
    · exact ih h _

theorem maxSizeOf_cons (first : Record) (rest : List Record) (nm : String) :
    maxSizeOf (first :: rest) nm
      = rest.foldl (fun a r0 => max a (sizeOfIn r0 nm)) (sizeOfIn first nm) := by
  rw [maxSizeOf, List.foldl_cons]
  congr 1
  omega

theorem sizeOfIn_le_maxSizeOf (rs : List Record) (r : Record) (hr : r ∈ rs) (nm : String) :
    sizeOfIn r nm ≤ maxSizeOf rs nm :=
  foldl_max_mem (fun r0 => sizeOfIn r0 nm) rs r hr 0

/-! Characterization of the pass-2 fold of Writer::write. -/

theorem updateInfos_ok_inv (names : List String) (rc : Record)
    (infos mid : List RecordFieldInfo)
    (hlen : infos.length = names.length)
    (h : updateInfos names rc infos = .ok mid) :
    mid.length = names.length ∧
    ∀ j (hj : j < names.length) (hj2 : j < infos.length) (hj3 : j < mid.length),
      ∃ v, lookupF (names.get ⟨j, hj⟩) rc = some v ∧ v.size_in_bytes ≤ 255 ∧
        mid.get ⟨j, hj3⟩ = { infos.get ⟨j, hj2⟩ with
          field_length := max (infos.get ⟨j, hj2⟩).field_length v.size_in_bytes } := by
  rw [updateInfos] at h
  obtain ⟨hl, hptr⟩ := resMapM_ok_inv (names.zip infos) _ mid h
  have hzlen : (names.zip infos).length = names.length := by
    simp [List.length_zip, hlen]
  refine ⟨by omega, ?_⟩
  intro j hj hj2 hj3
  have hjz : j < (names.zip infos).length := by omega
  have hfj := hptr j hjz hj3
  have hgz : (names.zip infos).get ⟨j, hjz⟩ = (names.get ⟨j, hj⟩, infos.get ⟨j, hj2⟩) := by
    simp [List.get_zip]
  rw [hgz] at hfj
  match hlk : lookupF (names.get ⟨j, hj⟩) rc with
  | none =>
    simp only [hlk] at hfj
    exact absurd hfj (by simp)
  | some v =>
    simp only [hlk] at hfj
    by_cases hsz : 255 < v.size_in_bytes
    · rw [if_pos hsz] at hfj
      exact absurd hfj (by simp)
    · rw [if_neg hsz] at hfj
      exact ⟨v, rfl, by omega, (Res.ok.inj hfj).symm⟩

theorem updateInfos_eq (rc : Record) : ∀ (names : List String)
    (infos : List RecordFieldInfo) (vals : List FieldValue),
    infos.length = names.length → vals.length = names.length →
    (∀ j (hj : j < names.length) (hj2 : j < vals.length),
      lookupF (names.get ⟨j, hj⟩) rc = some (vals.get ⟨j, hj2⟩)) →
    (∀ v ∈ vals, v.size_in_bytes ≤ 255) →
    updateInfos names rc infos = .ok (List.zipWith
      (fun i v => { i with field_length := max i.field_length v.size_in_bytes })
      infos vals) := by
  intro names
  induction names with
  | nil =>
    intro infos vals _ hlen2 _ _
    have hv : vals = [] := List.length_eq_zero.mp (by simpa using hlen2)
    subst hv
    rw [List.zipWith_nil_right]
    rfl
  | cons nm names' ih =>
    intro infos vals hlen1 hlen2 hlook hsz
    match infos, vals with
    | [], _ => simp at hlen1
    | _, [] => simp at hlen2
    | i :: infos', v :: vals' =>
      rw [updateInfos, List.zip_cons_cons, List.mapM_cons]
      have h0 : lookupF nm rc = some v := hlook 0 (by simp) (by simp)
      simp only [h0]
      rw [if_neg (by have := hsz v (List.mem_cons_self v vals'); omega)]
      have hrest : updateInfos names' rc infos'
          = .ok (List.zipWith
            (fun i v => { i with field_length := max i.field_length v.size_in_bytes })
            infos' vals') := by
        apply ih infos' vals' (by simpa using hlen1) (by simpa using hlen2)
        · intro j hj hj2
          exact hlook (j + 1) (by simpa using hj) (by simpa using hj2)
        · intro w hw
          exact hsz w (List.mem_cons_of_mem v hw)
      rw [updateInfos] at hrest
      rw [hrest]
      rfl

theorem nodupB_transfer (first r : Record) (hsh : sameShapeB first r = true)
    (hnod : nodupB (first.map Prod.fst) = true) : nodupB (r.map Prod.fst) = true := by
  rw [sameShapeB, Bool.and_eq_true] at hsh
  have : r.map Prod.fst = first.map Prod.fst := by
    have := hsh.1
    exact eq_of_beq this
  rw [this]
  exact hnod

theorem maxSizeOf_append_one (l : List Record) (r : Record) (nm : String) :
    maxSizeOf (l ++ [r]) nm = max (maxSizeOf l nm) (sizeOfIn r nm) := by
  rw [maxSizeOf, maxSizeOf, List.foldl_append]
  rfl

theorem sameShape_names (first r : Record) (hsh : sameShapeB first r = true) :
    r.map Prod.fst = first.map Prod.fst := by
  rw [sameShapeB, Bool.and_eq_true] at hsh
  exact eq_of_beq hsh.1

theorem sameShape_types (first r : Record) (hsh : sameShapeB first r = true) :
    r.map (fun p => p.2.field_type) = first.map (fun p => p.2.field_type) := by
  rw [sameShapeB, Bool.and_eq_true] at hsh
  exact eq_of_beq hsh.2

theorem sameShape_length (first r : Record) (hsh : sameShapeB first r = true) :
    r.length = first.length := by
  have := sameShape_names first r hsh
  have h1 : (r.map Prod.fst).length = (first.map Prod.fst).length := by rw [this]
  simpa using h1

theorem specInfos_step (first : Record) (done : List Record) (r : Record)
    (hnod : nodupB (first.map Prod.fst) = true) (hsh : sameShapeB first r = true) :
    List.zipWith (fun i v => { i with field_length := max i.field_length v.size_in_bytes })
      (specInfos first done) (r.map Prod.snd) = specInfos first (done ++ [r]) := by
  have hrlen := sameShape_length first r hsh
  have hrn := sameShape_names first r hsh
  have hrnod := nodupB_transfer first r hsh hnod
  apply List.ext_get
  · simp [specInfos, hrlen]
  intro j hj hj2
  have hjf : j < first.length := by
    simp [specInfos] at hj2
    exact hj2
  have hjr : j < r.length := by omega
  have hg1 : (specInfos first done).get ⟨j, by simpa [specInfos] using hjf⟩
      = ⟨(first.get ⟨j, hjf⟩).1, (first.get ⟨j, hjf⟩).2.field_type,
          maxSizeOf (first :: done) (first.get ⟨j, hjf⟩).1⟩ := by
    simp [specInfos, List.get_map]
  have hg2 : (specInfos first (done ++ [r])).get ⟨j, by simpa [specInfos] using hjf⟩
      = ⟨(first.get ⟨j, hjf⟩).1, (first.get ⟨j, hjf⟩).2.field_type,
          maxSizeOf (first :: (done ++ [r])) (first.get ⟨j, hjf⟩).1⟩ := by
    simp [specInfos, List.get_map]
  have hname : (r.get ⟨j, hjr⟩).1 = (first.get ⟨j, hjf⟩).1 := by
    have h1 := List.get_of_eq hrn ⟨j, by simpa using hjr⟩
    simpa [List.get_eq_getElem, List.getElem_map] using h1
  have hsize : sizeOfIn r (first.get ⟨j, hjf⟩).1 = (r.get ⟨j, hjr⟩).2.size_in_bytes := by
    rw [sizeOfIn, ← hname, nodup_lookup_get r hrnod j hjr]
    rfl
  rw [List.get_zipWith]
  rw [hg1, hg2]
  have hmax : maxSizeOf (first :: (done ++ [r])) (first.get ⟨j, hjf⟩).1
      = max (maxSizeOf (first :: done) (first.get ⟨j, hjf⟩).1)
          (sizeOfIn r (first.get ⟨j, hjf⟩).1) := by
    have : first :: (done ++ [r]) = (first :: done) ++ [r] := by simp
    rw [this, maxSizeOf_append_one]
  rw [hmax, hsize]
  simp [List.get_map]

theorem fold_updateInfos (first : Record) (hnod : nodupB (first.map Prod.fst) = true) :
    ∀ (rem done : List Record),
      (∀ r ∈ rem, sameShapeB first r = true) →
      (∀ r ∈ rem, ∀ p ∈ r, p.2.size_in_bytes ≤ 255) →
      rem.foldlM (fun inf r0 => updateInfos (first.map Prod.fst) r0 inf)
        (specInfos first done)
      = .ok (specInfos first (done ++ rem)) := by
  intro rem
  induction rem with
  | nil =>
    intro done _ _
    simp
    rfl
  | cons r rem' ih =>
    intro done hsh hsz
    have hshr := hsh r (List.mem_cons_self r rem')
    have hrlen := sameShape_length first r hshr
    have hrn := sameShape_names first r hshr
    have hrnod := nodupB_transfer first r hshr hnod
    rw [List.foldlM_cons]
    have hstep : updateInfos (first.map Prod.fst) r (specInfos first done)
        = .ok (specInfos first (done ++ [r])) := by
      rw [← specInfos_step first done r hnod hshr]
      apply updateInfos_eq r (first.map Prod.fst) (specInfos first done) (r.map Prod.snd)
      · simp [specInfos]
      · simp [hrlen]
      · intro j hj hj2
        have hjf : j < first.length := by simpa using hj
        have hjr : j < r.length := by omega
        have hname : (first.map Prod.fst).get ⟨j, hj⟩ = (r.get ⟨j, hjr⟩).1 := by
          have h1 := List.get_of_eq hrn.symm ⟨j, hj⟩
          simpa [List.get_eq_getElem, List.getElem_map] using h1
        rw [hname, nodup_lookup_get r hrnod j hjr]
        congr 1
        simp [List.get_map]
      · intro v hv
        obtain ⟨p, hp, hpv⟩ := List.mem_map.mp hv
        exact hpv ▸ hsz r (List.mem_cons_self r rem') p hp
    rw [hstep]
    have hbind : (Res.ok (specInfos first (done ++ [r]))
        >>= fun inf => rem'.foldlM (fun inf r0 => updateInfos (first.map Prod.fst) r0 inf) inf)
        = rem'.foldlM (fun inf r0 => updateInfos (first.map Prod.fst) r0 inf)
            (specInfos first (done ++ [r])) := rfl
    rw [hbind, ih (done ++ [r]) (fun x hx => hsh x (List.mem_cons_of_mem r hx))
      (fun x hx => hsz x (List.mem_cons_of_mem r hx))]
    rw [List.append_assoc]
    rfl

theorem specInfos_nil (first : Record) (hnod : nodupB (first.map Prod.fst) = true) :
    specInfos first []
      = first.map (fun p => ⟨p.1, p.2.field_type, p.2.size_in_bytes⟩) := by
  apply List.map_congr_left
  intro p hp
  have : maxSizeOf [first] p.1 = p.2.size_in_bytes := by
    rw [maxSizeOf, List.foldl_cons, List.foldl_nil, sizeOfIn,
      mem_nodup_lookup first hnod p hp]
    simp
  rw [this]

/-- Under a consistent schema with all values fitting a field, the schema-inference
passes of Writer::write succeed and finalize exactly the per-column maxima. -/
theorem computeInfos_spec (first : Record) (rest : List Record)
    (hcons : consistentB first rest = true)
    (hsz : ∀ r ∈ first :: rest, ∀ p ∈ r, p.2.size_in_bytes ≤ 255) :
    computeInfos first rest = .ok (first.map Prod.fst, specInfos first rest) := by
  rw [consistentB, Bool.and_eq_true, List.all_eq_true] at hcons
  obtain ⟨hnod, hsh⟩ := hcons
  rw [computeInfos, buildFirstInfos_ok first (hsz first (List.mem_cons_self first rest))]
  rw [← specInfos_nil first hnod]
  show Res.bind (rest.foldlM (fun infos r0 => updateInfos (first.map Prod.fst) r0 infos)
      (specInfos first []))
    (fun infos => Res.ok (first.map Prod.fst, infos))
    = Res.ok (first.map Prod.fst, specInfos first rest)
  rw [fold_updateInfos first hnod rest [] (fun r hr => hsh r hr)
    (fun r hr => hsz r (List.mem_cons_of_mem first hr))]
  rfl

theorem fold_ok_char (names : List String) :
    ∀ (rest : List Record) (infos infos' : List RecordFieldInfo),
      infos.length = names.length →
      rest.foldlM (fun inf r0 => updateInfos names r0 inf) infos = .ok infos' →
      infos'.length = names.length ∧
      (∀ j (hj : j < names.length) (hj2 : j < infos'.length) (hj3 : j < infos.length),
        (infos'.get ⟨j, hj2⟩).name = (infos.get ⟨j, hj3⟩).name ∧
        (infos'.get ⟨j, hj2⟩).field_type = (infos.get ⟨j, hj3⟩).field_type ∧
        (infos'.get ⟨j, hj2⟩).field_length
          = rest.foldl (fun a r0 => max a (sizeOfIn r0 (names.get ⟨j, hj⟩)))
              ((infos.get ⟨j, hj3⟩).field_length)) ∧
      (∀ r0 ∈ rest, ∀ j (hj : j < names.length),
        ∃ v, lookupF (names.get ⟨j, hj⟩) r0 = some v ∧ v.size_in_bytes ≤ 255) := by
  intro rest
  induction rest with
  | nil =>
    intro infos infos' hlen h
    have heq : infos = infos' := by
      have h' : Res.ok infos = Res.ok infos' := h
      exact Res.ok.inj h'
    subst heq
    refine ⟨hlen, ?_, ?_⟩
    · intro j hj hj2 hj3
      exact ⟨rfl, rfl, rfl⟩
    · intro r0 hr0
      simp at hr0
  | cons r rest' ih =>
    intro infos infos' hlen h
    rw [List.foldlM_cons] at h
    match hui : updateInfos names r infos with
    | .err e =>
      rw [hui] at h
      exact absurd h (by simp [Bind.bind, Res.bind])
    | .crash m =>
      rw [hui] at h
      exact absurd h (by simp [Bind.bind, Res.bind])
    | .ok mid =>
      rw [hui] at h
      have h2 : rest'.foldlM (fun inf r0 => updateInfos names r0 inf) mid = .ok infos' := h
      obtain ⟨hmidlen, hmid⟩ := updateInfos_ok_inv names r infos mid hlen hui
      obtain ⟨hlen', hpt, hlook⟩ := ih mid infos' (by omega) h2
      refine ⟨hlen', ?_, ?_⟩
      · intro j hj hj2 hj3
        have hjm : j < mid.length := by omega
        obtain ⟨hn, ht, hl⟩ := hpt j hj hj2 hjm
        obtain ⟨v, hv, hvsz, hmv⟩ := hmid j hj hj3 hjm
        refine ⟨?_, ?_, ?_⟩
        · rw [hn, hmv]
        · rw [ht, hmv]
        · rw [hl, hmv, List.foldl_cons]
          have : sizeOfIn r (names.get ⟨j, hj⟩) = v.size_in_bytes := by
            rw [sizeOfIn, hv]
            rfl
          rw [this]
      · intro r0 hr0 j hj
        rcases List.mem_cons.mp hr0 with hc | hc
        · subst hc
          obtain ⟨v, hv, hvsz, _⟩ := hmid j hj (by omega) (by omega)
          exact ⟨v, hv, hvsz⟩
        · exact hlook r0 hc j hj

theorem computeInfos_ok_inv (first : Record) (rest : List Record)
    (names : List String) (infos : List RecordFieldInfo)
    (h : computeInfos first rest = .ok (names, infos)) :
    names = first.map Prod.fst ∧
    infos.length = first.length ∧
    (∀ p ∈ first, p.2.size_in_bytes ≤ 255) ∧
    (∀ r0 ∈ rest, ∀ j (hj : j < first.length),
      ∃ v, lookupF (first.get ⟨j, hj⟩).1 r0 = some v ∧ v.size_in_bytes ≤ 255) ∧
    (∀ j (hj : j < first.length) (hj2 : j < infos.length),
      (infos.get ⟨j, hj2⟩).name = (first.get ⟨j, hj⟩).1 ∧
      (infos.get ⟨j, hj2⟩).field_type = (first.get ⟨j, hj⟩).2.field_type ∧
      (infos.get ⟨j, hj2⟩).field_length
        = rest.foldl (fun a r0 => max a (sizeOfIn r0 (first.get ⟨j, hj⟩).1))
            ((first.get ⟨j, hj⟩).2.size_in_bytes)) := by
  rw [computeInfos] at h
  match hb : buildFirstInfos first with
  | .error e =>
    rw [hb] at h
    exact absurd h (by simp)
  | .ok infos0 =>
    rw [hb] at h
    have h1 : Res.bind
        (rest.foldlM (fun infos r0 => updateInfos (first.map Prod.fst) r0 infos) infos0)
        (fun infos => Res.ok (first.map Prod.fst, infos)) = Res.ok (names, infos) := h
    match hf : rest.foldlM (fun infos r0 => updateInfos (first.map Prod.fst) r0 infos) infos0 with
    | .err e =>
      rw [hf] at h1
      exact absurd h1 (by simp [Res.bind])
    | .crash m =>
      rw [hf] at h1
      exact absurd h1 (by simp [Res.bind])
    | .ok infosF =>
      rw [hf] at h1
      have hpair : (first.map Prod.fst, infosF) = (names, infos) := by
        have h' : Res.ok (first.map Prod.fst, infosF) = Res.ok (names, infos) := h1
        exact Res.ok.inj h'
      have hn : first.map Prod.fst = names := congrArg Prod.fst hpair
      have hi : infosF = infos := congrArg Prod.snd hpair
      subst hi
      subst hn
      obtain ⟨hsz0, hinfos0⟩ := buildFirstInfos_ok_inv first infos0 hb
      have hlen0 : infos0.length = (first.map Prod.fst).length := by
        rw [hinfos0]
        simp
      obtain ⟨hlenF, hptF, hlookF⟩ := fold_ok_char (first.map Prod.fst) rest infos0 infosF
        hlen0 hf
      have hnames_get : ∀ j (hj : j < first.length),
          (first.map Prod.fst).get ⟨j, by simpa using hj⟩ = (first.get ⟨j, hj⟩).1 := by
        intro j hj
        simp [List.get_eq_getElem, List.getElem_map]
      refine ⟨rfl, ?_, hsz0, ?_, ?_⟩
      · rw [hlenF]
        simp
      · intro r0 hr0 j hj
        obtain ⟨v, hv, hvsz⟩ := hlookF r0 hr0 j (by simpa using hj)
        rw [hnames_get j hj] at hv
        exact ⟨v, hv, hvsz⟩
      · intro j hj hj2
        have hj0 : j < infos0.length := by omega
        obtain ⟨hname, htype, hlen⟩ := hptF j (by simpa using hj) hj2 hj0
        have hg0 : infos0.get ⟨j, hj0⟩
            = ⟨(first.get ⟨j, hj⟩).1, (first.get ⟨j, hj⟩).2.field_type,
                (first.get ⟨j, hj⟩).2.size_in_bytes⟩ := by
          simp [hinfos0, List.get_eq_getElem, List.getElem_map]
        rw [hg0] at hname htype hlen
        rw [hnames_get j hj] at hlen
        exact ⟨hname, htype, hlen⟩

/-! Emission on a never-failing sink: written bytes are exactly the spec bytes. -/

theorem wByte_ne_crash (s : Sink) (b : Nat) (M : String) : wByte s b ≠ .crash M := by
  rw [wByte]
  match hsb : s.writeByte b with
  | (s', true) => simp
  | (s', false) => simp

theorem wBytes_ne_crash (bs : List Nat) : ∀ (s : Sink) (M : String),
    wBytes s bs ≠ .crash M := by
  induction bs with
  | nil => intro s M h; exact absurd h (by simp [wBytes])
  | cons b rest ih =>
    intro s M h
    rw [wBytes] at h
    match hw : wByte s b with
    | .ok s' => rw [hw] at h; exact ih s' M h
    | .err e => rw [hw] at h; simp [Res.bind] at h
    | .crash m => exact absurd hw (wByte_ne_crash s b m)

theorem writeField_none (r0 : Record) (s : Sink) (p : String × RecordFieldInfo)
    (h : lookupF p.1 r0 = none) : writeField r0 s p = .crash unwrapMsg := by
  rw [writeField, h]

theorem writeField_some (r0 : Record) (s : Sink) (p : String × RecordFieldInfo)
    (v : FieldValue) (h : lookupF p.1 r0 = some v) :
    writeField r0 s p = Res.bind (v.write_to s) (fun sn =>
      if p.2.field_length < sn.2 % 256 then .crash "record length was miscalculated"
      else wBytes sn.1 (List.replicate (p.2.field_length - sn.2 % 256) 32)) := by
  rw [writeField, h]

theorem writeField_spec (r0 : Record) (w : List Nat) (p : String × RecordFieldInfo)
    (hsz : ∀ v, lookupF p.1 r0 = some v → v.size_in_bytes ≤ 255) :
    (∃ M, writeField r0 ⟨w, none⟩ p = .crash M) ∨
    writeField r0 ⟨w, none⟩ p = .ok ⟨w ++ fieldBytes r0 p, none⟩ := by
  match hlk : lookupF p.1 r0 with
  | none => exact .inl ⟨unwrapMsg, writeField_none r0 _ p hlk⟩
  | some v =>
    have hs := hsz v hlk
    rw [writeField_some r0 _ p v hlk, write_to_noFail]
    have hmod : v.bytes.length % 256 = v.bytes.length :=
      Nat.mod_eq_of_lt (by have : v.size_in_bytes = v.bytes.length := rfl; omega)
    by_cases hlt : p.2.field_length < v.bytes.length % 256
    · exact .inl ⟨"record length was miscalculated", by
        show Res.bind _ _ = _
        rw [Res.bind, if_pos hlt]⟩
    · right
      show Res.bind _ _ = _
      rw [Res.bind, if_neg hlt, wBytes_noFail]
      rw [fieldBytes, hlk, hmod]
      rw [List.append_assoc]

theorem foldlM_emit_or_crash {α : Type} (g : α → List Nat) (f : Sink → α → Res Sink)
    (l : List α)
    (hf : ∀ w a, a ∈ l → (∃ M, f ⟨w, none⟩ a = .crash M) ∨ f ⟨w, none⟩ a = .ok ⟨w ++ g a, none⟩) :
    ∀ w, (∃ M, l.foldlM f ⟨w, none⟩ = .crash M) ∨
      l.foldlM f ⟨w, none⟩ = .ok ⟨w ++ (l.map g).flatten, none⟩ := by
  induction l with
  | nil => intro w; right; simp; rfl
  | cons a t ih =>
    intro w
    rw [List.foldlM_cons]
    rcases hf w a (List.mem_cons_self a t) with ⟨M, hM⟩ | hok
    · left
      exact ⟨M, by rw [hM]; rfl⟩
    · rw [hok]
      have hbind : (Res.ok (⟨w ++ g a, none⟩ : Sink) >>= fun s' => t.foldlM f s')
          = t.foldlM f ⟨w ++ g a, none⟩ := rfl
      rw [hbind]
      rcases ih (fun w' a' ha' => hf w' a' (List.mem_cons_of_mem a ha')) (w ++ g a) with
        ⟨M, hM⟩ | hok2
      · exact .inl ⟨M, hM⟩
      · right
        rw [hok2]
        simp [List.append_assoc]

theorem foldlM_emit_ok {α : Type} (g : α → List Nat) (f : Sink → α → Res Sink)
    (l : List α)
    (hf : ∀ w a, a ∈ l → f ⟨w, none⟩ a = .ok ⟨w ++ g a, none⟩) :
    ∀ w, l.foldlM f ⟨w, none⟩ = .ok ⟨w ++ (l.map g).flatten, none⟩ := by
  induction l with
  | nil => intro w; simp; rfl
  | cons a t ih =>
    intro w
    rw [List.foldlM_cons, hf w a (List.mem_cons_self a t)]
    have hbind : (Res.ok (⟨w ++ g a, none⟩ : Sink) >>= fun s' => t.foldlM f s')
        = t.foldlM f ⟨w ++ g a, none⟩ := rfl
    rw [hbind, ih (fun w' a' ha' => hf w' a' (List.mem_cons_of_mem a ha')) (w ++ g a)]
    simp [List.append_assoc]

theorem writeField_ok (r0 : Record) (w : List Nat) (p : String × RecordFieldInfo)
    (v : FieldValue) (hv : lookupF p.1 r0 = some v) (hs : v.size_in_bytes ≤ 255)
    (hle : v.size_in_bytes ≤ p.2.field_length) :
    writeField r0 ⟨w, none⟩ p = .ok ⟨w ++ fieldBytes r0 p, none⟩ := by
  have hsz : v.size_in_bytes = v.bytes.length := rfl
  rw [writeField_some r0 _ p v hv, write_to_noFail]
  have hmod : v.bytes.length % 256 = v.bytes.length := Nat.mod_eq_of_lt (by omega)
  show Res.bind _ _ = _
  rw [Res.bind]
  rw [if_neg (by omega)]
  rw [hmod, wBytes_noFail, fieldBytes, hv, List.append_assoc]

theorem recordStep_spec (names : List String) (infos : List RecordFieldInfo)
    (r0 : Record)
    (hsz : ∀ p ∈ names.zip infos, ∀ v, lookupF p.1 r0 = some v → v.size_in_bytes ≤ 255) :
    ∀ w, (∃ M, recordStep names infos ⟨w, none⟩ r0 = .crash M) ∨
      recordStep names infos ⟨w, none⟩ r0 = .ok ⟨w ++ recordBytes names infos r0, none⟩ := by
  intro w
  rw [recordStep, wByte_noFail]
  have hb : Res.bind (Res.ok (⟨w ++ [32], none⟩ : Sink))
      (fun sy => (names.zip infos).foldlM (writeField r0) sy)
      = (names.zip infos).foldlM (writeField r0) ⟨w ++ [32], none⟩ := rfl
  rw [hb]
  rcases foldlM_emit_or_crash (fieldBytes r0) (writeField r0) (names.zip infos)
    (fun w' p hp => writeField_spec r0 w' p (hsz p hp)) (w ++ [32]) with ⟨M, hM⟩ | hok
  · exact .inl ⟨M, hM⟩
  · right
    rw [hok, recordBytes]
    congr 2
    rw [List.append_assoc]
    rfl

theorem recordStep_ok (names : List String) (infos : List RecordFieldInfo)
    (r0 : Record)
    (hok : ∀ p ∈ names.zip infos, ∃ v, lookupF p.1 r0 = some v ∧
      v.size_in_bytes ≤ 255 ∧ v.size_in_bytes ≤ p.2.field_length) :
    ∀ w, recordStep names infos ⟨w, none⟩ r0
      = .ok ⟨w ++ recordBytes names infos r0, none⟩ := by
  intro w
  rw [recordStep, wByte_noFail]
  have hb : Res.bind (Res.ok (⟨w ++ [32], none⟩ : Sink))
      (fun sy => (names.zip infos).foldlM (writeField r0) sy)
      = (names.zip infos).foldlM (writeField r0) ⟨w ++ [32], none⟩ := rfl
  rw [hb]
  rw [foldlM_emit_ok (fieldBytes r0) (writeField r0) (names.zip infos)
    (fun w' p hp => by
      obtain ⟨v, hv, h255, hle⟩ := hok p hp
      exact writeField_ok r0 w' p v hv h255 hle) (w ++ [32])]
  rw [recordBytes]
  congr 2
  rw [List.append_assoc]
  rfl

theorem descFold_ok (infos : List RecordFieldInfo) (w : List Nat) :
    infos.foldlM (fun sx i => i.write_to sx) (⟨w, none⟩ : Sink)
      = .ok ⟨w ++ (infos.map descBytes).flatten, none⟩ :=
  foldlM_emit_ok descBytes (fun sx i => i.write_to sx) infos
    (fun w' i _ => wBytes_noFail (descBytes i) w') w

theorem Res.bind_ok {α β : Type} (a : α) (f : α → Res β) : Res.bind (.ok a) f = f a := rfl

theorem hdr_write_clean (h : Header) :
    h.write_to Sink.clean = .ok ⟨headerBytes h, none⟩ := by
  rw [Header.write_to]
  have := wBytes_noFail (headerBytes h) []
  rw [Sink.clean, this]
  rfl

theorem writeCont_spec (rs : List Record) (names : List String)
    (infos : List RecordFieldInfo)
    (hsz : ∀ r0 ∈ rs, ∀ p ∈ names.zip infos, ∀ v,
      lookupF p.1 r0 = some v → v.size_in_bytes ≤ 255) :
    (∃ M, writeCont rs Sink.clean (names, infos) = .crash M) ∨
    writeCont rs Sink.clean (names, infos)
      = .ok ⟨headerBytes (hdrOf rs.length infos) ++ (infos.map descBytes).flatten
          ++ [13] ++ (rs.map (recordBytes names infos)).flatten ++ [26], none⟩ := by
  rw [writeCont]
  simp only [show ((names, infos).1 : List String) = names from rfl,
    show ((names, infos).2 : List RecordFieldInfo) = infos from rfl]
  rw [hdr_write_clean, Res.bind_ok, descFold_ok, Res.bind_ok,
    show TERMINATOR_VALUE = 13 from rfl, wByte_noFail, Res.bind_ok]
  rcases foldlM_emit_or_crash (recordBytes names infos) (recordStep names infos) rs
    (fun w r0 hr0 => recordStep_spec names infos r0 (hsz r0 hr0) w)
    ((headerBytes (hdrOf rs.length infos) ++ (infos.map descBytes).flatten) ++ [13]) with
    ⟨M, hM⟩ | hok
  · left
    refine ⟨M, ?_⟩
    rw [hM]
    rfl
  · right
    rw [hok, Res.bind_ok, show FILE_TERMINATOR = 26 from rfl, wByte_noFail, Res.bind_ok]

theorem writeCont_ok (rs : List Record) (names : List String)
    (infos : List RecordFieldInfo)
    (hok : ∀ r0 ∈ rs, ∀ p ∈ names.zip infos, ∃ v, lookupF p.1 r0 = some v ∧
      v.size_in_bytes ≤ 255 ∧ v.size_in_bytes ≤ p.2.field_length) :
    writeCont rs Sink.clean (names, infos)
      = .ok ⟨headerBytes (hdrOf rs.length infos) ++ (infos.map descBytes).flatten
          ++ [13] ++ (rs.map (recordBytes names infos)).flatten ++ [26], none⟩ := by
  rw [writeCont]
  simp only [show ((names, infos).1 : List String) = names from rfl,
    show ((names, infos).2 : List RecordFieldInfo) = infos from rfl]
  rw [hdr_write_clean, Res.bind_ok, descFold_ok, Res.bind_ok,
    show TERMINATOR_VALUE = 13 from rfl, wByte_noFail, Res.bind_ok]
  rw [foldlM_emit_ok (recordBytes names infos) (recordStep names infos) rs
    (fun w r0 hr0 => recordStep_ok names infos r0 (hok r0 hr0) w)]
  rw [Res.bind_ok, show FILE_TERMINATOR = 26 from rfl, wByte_noFail, Res.bind_ok]

/-! Reader lemmas: each writer artifact parses back. -/

theorem headerBytes_length (h : Header) : (headerBytes h).length = 32 := by
  simp [headerBytes, le32, le16]

theorem readHeader_bytes (h : Header) (rest : List Nat)
    (h1 : h.num_records < 2 ^ 32) (h2 : h.offset_to_first_record < 2 ^ 16)
    (h3 : h.size_of_record < 2 ^ 16) :
    readHeader (headerBytes h ++ rest) = .ok (h, rest) := by
  rw [readHeader, if_pos (by simp [headerBytes_length])]
  have hA : readLE (((headerBytes h ++ rest).drop 4).take 4) = h.num_records := by
    simp [headerBytes, le32, le16, readLE]
    omega
  have hB : readLE (((headerBytes h ++ rest).drop 8).take 2) = h.offset_to_first_record := by
    simp [headerBytes, le32, le16, readLE]
    omega
  have hC : readLE (((headerBytes h ++ rest).drop 10).take 2) = h.size_of_record := by
    simp [headerBytes, le32, le16, readLE]
    omega
  have hD : (headerBytes h ++ rest).drop 32 = rest := by
    simp [headerBytes, le32, le16]
  rw [hA, hB, hC, hD]

theorem takeWhile_append_all (p : Nat → Bool) (xs ys : List Nat)
    (h : ∀ b ∈ xs, p b = true) :
    (xs ++ ys).takeWhile p = xs ++ ys.takeWhile p := by
  induction xs with
  | nil => simp
  | cons a t ih =>
    rw [List.cons_append, List.takeWhile_cons, h a (List.mem_cons_self a t)]
    rw [ih (fun b hb => h b (List.mem_cons_of_mem a hb))]
    rfl


theorem validName_bytes (nm : String) (hv : validNameB nm = true) :
    (nm.data.map Char.toNat).length ≤ 10 ∧
    ∀ b ∈ nm.data.map Char.toNat, 31 < b ∧ b < 127 := by
  rw [validNameB, Bool.and_eq_true, decide_eq_true_eq, List.all_eq_true] at hv
  constructor
  · rw [List.length_map]
    have hd : nm.data.length = nm.length := rfl
    omega
  · intro b hb
    obtain ⟨c, hc, rfl⟩ := List.mem_map.mp hb
    have := hv.2 c hc
    simp only [Bool.and_eq_true, decide_eq_true_eq] at this
    exact this

theorem tagByte_parse (t : FieldType) : parseTag (tagByte t) = .ok t := by
  cases t <;> rfl

theorem descBytes_length (i : RecordFieldInfo) (hv : validNameB i.name = true) :
    (descBytes i).length = 32 := by
  obtain ⟨hlen, _⟩ := validName_bytes i.name hv
  have htake : ((i.name.data.map Char.toNat).take 10) = i.name.data.map Char.toNat :=
    List.take_of_length_le hlen
  rw [List.length_map] at hlen
  have hd : i.name.data.length = i.name.length := rfl
  rw [descBytes]
  simp only [htake]
  simp
  omega

theorem takeWhile_replicate0 (k : Nat) :
    (List.replicate k 0).takeWhile (fun b => b ≠ 0) = [] := by
  cases k with
  | zero => rfl
  | succ n => simp [List.replicate_succ, List.takeWhile_cons]

theorem parseDesc_descBytes (i : RecordFieldInfo) (hv : validNameB i.name = true)
    (hl : i.field_length ≤ 255) :
    parseDesc (descBytes i) = .ok i := by
  obtain ⟨hlen, hbt⟩ := validName_bytes i.name hv
  have htake : ((i.name.data.map Char.toNat).take 10) = i.name.data.map Char.toNat :=
    List.take_of_length_le hlen
  have hA_len : ((i.name.data.map Char.toNat)
      ++ List.replicate (11 - (i.name.data.map Char.toNat).length) 0).length = 11 := by
    rw [List.length_append, List.length_replicate]
    omega
  have hA_le : ((i.name.data.map Char.toNat)
      ++ List.replicate (11 - (i.name.data.map Char.toNat).length) 0).length ≤ 11 :=
    le_of_eq hA_len
  have hdesc : descBytes i = ((i.name.data.map Char.toNat)
      ++ List.replicate (11 - (i.name.data.map Char.toNat).length) 0)
      ++ (tagByte i.field_type :: [0, 0, 0, 0] ++ (i.field_length % 256 :: 0
        :: List.replicate 14 0)) := by
    rw [descBytes]
    simp only [htake]
    simp [List.append_assoc]
  have hget11 : (descBytes i).getD 11 0 = tagByte i.field_type := by
    rw [hdesc, List.getD_append_right _ _ _ _ hA_le, hA_len]
    rfl
  have hget16 : (descBytes i).getD 16 0 = i.field_length % 256 := by
    rw [hdesc, List.getD_append_right _ _ _ _ (by omega), hA_len]
    rfl
  have htw : ((descBytes i).take 11).takeWhile (· ≠ 0) = i.name.data.map Char.toNat := by
    rw [hdesc, List.take_left' hA_len]
    rw [takeWhile_append_all _ _ _ (fun b hb => by
      have := hbt b hb
      simp
      omega)]
    rw [takeWhile_replicate0, List.append_nil]
  rw [parseDesc, hget11, tagByte_parse, htw, hget16, Nat.mod_eq_of_lt (by omega),
    strOfBytes_of_string]

theorem descBytes_head_ne_13 (i : RecordFieldInfo) (hv : validNameB i.name = true)
    (b : Nat) (tl : List Nat) (hdb : descBytes i = b :: tl) : b ≠ 13 := by
  obtain ⟨hlen, hbt⟩ := validName_bytes i.name hv
  have htake : ((i.name.data.map Char.toNat).take 10) = i.name.data.map Char.toNat :=
    List.take_of_length_le hlen
  rw [descBytes] at hdb
  simp only [htake] at hdb
  cases hnm : i.name.data.map Char.toNat with
  | nil =>
    rw [hnm] at hdb
    simp [List.replicate_succ] at hdb
    omega
  | cons c cs =>
    rw [hnm] at hdb
    rw [List.cons_append, List.cons_append, List.cons_append] at hdb
    have hbc : b = c := (List.cons.injEq _ _ _ _ ▸ hdb.symm).1
    rw [hnm] at hbt
    have := hbt c (List.mem_cons_self c cs)
    omega

theorem readInfos_spec :
    ∀ infos : List RecordFieldInfo,
    (∀ i ∈ infos, validNameB i.name = true ∧ i.field_length ≤ 255) →
    ∀ fuel : Nat, ∀ rest : List Nat,
    (infos.map descBytes).flatten.length + 1 ≤ fuel →
    readInfos fuel ((infos.map descBytes).flatten ++ 13 :: rest) = .ok (infos, rest) := by
  intro infos
  induction infos with
  | nil =>
    intro _ fuel rest hf
    cases fuel with
    | zero => omega
    | succ f => simp [readInfos]
  | cons i is ih =>
    intro hv fuel rest hf
    obtain ⟨hvi, hvl⟩ := hv i (List.mem_cons_self i is)
    have hlen32 : (descBytes i).length = 32 := descBytes_length i hvi
    simp only [List.map_cons, List.flatten_cons, List.length_append, hlen32] at hf ⊢
    cases fuel with
    | zero => omega
    | succ f =>
      cases hdb : descBytes i with
      | nil => rw [hdb] at hlen32; simp at hlen32
      | cons b tl =>
        have hb13 : b ≠ 13 := descBytes_head_ne_13 i hvi b tl hdb
        have htl : tl.length = 31 := by
          rw [hdb] at hlen32
          simpa using hlen32
        rw [List.append_assoc, List.cons_append]
        have htk : (b :: (tl ++ ((is.map descBytes).flatten ++ 13 :: rest))).take 32
            = descBytes i := by
          rw [show b :: (tl ++ ((is.map descBytes).flatten ++ 13 :: rest))
              = (b :: tl) ++ ((is.map descBytes).flatten ++ 13 :: rest) from rfl]
          rw [List.take_left' (by simp [htl]), hdb]
        have hdr : (b :: (tl ++ ((is.map descBytes).flatten ++ 13 :: rest))).drop 32
            = (is.map descBytes).flatten ++ 13 :: rest := by
          rw [show b :: (tl ++ ((is.map descBytes).flatten ++ 13 :: rest))
              = (b :: tl) ++ ((is.map descBytes).flatten ++ 13 :: rest) from rfl]
          exact List.drop_left' (by simp [htl])
        have hrec := ih (fun j hj => hv j (List.mem_cons_of_mem i hj)) f rest (by omega)
        simp only [readInfos, if_neg hb13, if_pos (by simp [htl] :
          32 ≤ (b :: (tl ++ ((is.map descBytes).flatten ++ 13 :: rest))).length),
          htk, hdr, parseDesc_descBytes i hvi hvl, hrec]

theorem canonVal_size_le (v : FieldValue) (hc : canonValB v = true) :
    v.size_in_bytes ≤ 255 := by
  match v with
  | .Character none => simp [FieldValue.size_in_bytes, FieldValue.bytes]
  | .Numeric none => simp [FieldValue.size_in_bytes, FieldValue.bytes]
  | .Float none => simp [FieldValue.size_in_bytes, FieldValue.bytes]
  | .Date none => simp [FieldValue.size_in_bytes, FieldValue.bytes]
  | .Logical none => simp [FieldValue.size_in_bytes, FieldValue.bytes]
  | .Logical (some b) =>
    cases b <;> simp [FieldValue.size_in_bytes, FieldValue.bytes]
  | .Character (some st) =>
    simp only [canonValB, Bool.and_eq_true, decide_eq_true_eq] at hc
    show (st.data.map Char.toNat).length ≤ 255
    rw [List.length_map]
    exact hc.1.1.2
  | .Numeric (some q) =>
    simp only [canonValB, Bool.and_eq_true, decide_eq_true_eq] at hc
    exact hc.2
  | .Float (some q) =>
    simp only [canonValB, Bool.and_eq_true, decide_eq_true_eq] at hc
    exact hc.2
  | .Date (some d) =>
    simp only [canonValB, Bool.and_eq_true, decide_eq_true_eq] at hc
    show (padBytes 4 (d.year % 10000) ++ padBytes 2 (d.month % 100)
      ++ padBytes 2 (d.day % 100)).length ≤ 255
    rw [List.length_append, List.length_append,
      padBytes_length 4 _ (by omega), padBytes_length 2 _ (by omega),
      padBytes_length 2 _ (by omega)]
    omega

theorem foldl_max_le (g : Record → Nat) (L : Nat) : ∀ l : List Record,
    (∀ r ∈ l, g r ≤ L) → ∀ a, a ≤ L → l.foldl (fun x r0 => max x (g r0)) a ≤ L := by
  intro l
  induction l with
  | nil => intro _ a ha; simpa
  | cons r t ih =>
    intro h a ha
    exact ih (fun x hx => h x (List.mem_cons_of_mem r hx)) _
      (max_le ha (h r (List.mem_cons_self r t)))

/-- The per-field conditions under which decode inverts the writer's window: the
record holds the looked-up value, it is canonical, it fits the descriptor length, and
the descriptor restates its type and name. -/
def goodPair (r0 : Record) (p : String × RecordFieldInfo) (v : FieldValue) : Prop :=
  lookupF p.1 r0 = some v ∧ canonValB v = true ∧
    v.size_in_bytes ≤ p.2.field_length ∧ p.2.field_type = v.field_type ∧ p.2.name = p.1

theorem fieldBytes_window (r0 : Record) (p : String × RecordFieldInfo) (v : FieldValue)
    (hlk : lookupF p.1 r0 = some v) :
    fieldBytes r0 p = v.bytes ++ List.replicate (p.2.field_length - v.bytes.length) 32 := by
  rw [fieldBytes, hlk]

theorem readFields_rt (r0 : Record)
    (pairs : List (String × RecordFieldInfo)) (vals : List FieldValue)
    (hf : List.Forall₂ (goodPair r0) pairs vals) : ∀ tail : List Nat,
    readFields (pairs.map Prod.snd) ((pairs.map (fieldBytes r0)).flatten ++ tail)
      = .ok ((pairs.zip vals).map (fun q => (q.1.1, q.2)), tail) := by
  induction hf with
  | nil => intro tail; simp [readFields]
  | @cons p v ps vs hpv htl ih =>
    intro tail
    obtain ⟨hlk, hcv, hsz, hft, hnm⟩ := hpv
    have hwin := fieldBytes_window r0 p v hlk
    have hwlen : (fieldBytes r0 p).length = p.2.field_length := by
      rw [hwin, List.length_append, List.length_replicate]
      have hsb : v.size_in_bytes = v.bytes.length := rfl
      omega
    have hge : p.2.field_length
        ≤ (fieldBytes r0 p ++ ((ps.map (fieldBytes r0)).flatten ++ tail)).length := by
      rw [List.length_append, hwlen]
      omega
    have h1 : decodeValue p.2.field_type
        ((fieldBytes r0 p ++ ((ps.map (fieldBytes r0)).flatten ++ tail)).take
          p.2.field_length) = .ok v := by
      rw [List.take_left' hwlen, hwin, hft]
      exact decodeValue_roundtrip v p.2.field_length hcv hsz
    have h2 : (fieldBytes r0 p
        ++ ((ps.map (fieldBytes r0)).flatten ++ tail)).drop p.2.field_length
        = (ps.map (fieldBytes r0)).flatten ++ tail := List.drop_left' hwlen
    simp only [List.map_cons, List.flatten_cons, List.append_assoc, List.zip_cons_cons]
    rw [readFields, if_pos hge, h1, h2, ih tail]
    simp [hnm]

theorem readRecord_rt (names : List String) (infos : List RecordFieldInfo) (r0 : Record)
    (vals : List FieldValue) (tail : List Nat)
    (hlen : infos.length ≤ names.length)
    (hf : List.Forall₂ (goodPair r0) (names.zip infos) vals) :
    readRecord infos (recordBytes names infos r0 ++ tail)
      = .ok (((names.zip infos).zip vals).map (fun q => (q.1.1, q.2)), tail) := by
  rw [recordBytes, List.cons_append, readRecord]
  have h := readFields_rt r0 (names.zip infos) vals hf tail
  rw [List.map_snd_zip names infos hlen] at h
  exact h

theorem readRecords_rt (names : List String) (infos : List RecordFieldInfo)
    (hlen : infos.length ≤ names.length) :
    ∀ (rs : List Record) (tail : List Nat),
    (∀ r0 ∈ rs, ∃ vals, List.Forall₂ (goodPair r0) (names.zip infos) vals ∧
      ((names.zip infos).zip vals).map (fun q => (q.1.1, q.2)) = r0) →
    readRecords infos rs.length ((rs.map (recordBytes names infos)).flatten ++ tail)
      = .ok rs := by
  intro rs
  induction rs with
  | nil => intro tail _; rw [List.length_nil, readRecords]
  | cons r rt ih =>
    intro tail h
    obtain ⟨vals, hf, hrec⟩ := h r (List.mem_cons_self r rt)
    simp only [List.map_cons, List.flatten_cons, List.length_cons, List.append_assoc]
    rw [readRecords, readRecord_rt names infos r vals _ hlen hf, hrec]
    have hgoal : (match readRecords infos rt.length
          ((rt.map (recordBytes names infos)).flatten ++ tail) with
        | Except.error e => Except.error e
        | Except.ok rs => Except.ok (r :: rs)) = Except.ok (r :: rt) := by
      rw [ih tail (fun x hx => h x (List.mem_cons_of_mem r hx))]
    exact hgoal

theorem record_vals (first : Record) (rest : List Record) (r0 : Record)
    (hnod : nodupB (first.map Prod.fst) = true)
    (hsh1 : r0.map Prod.fst = first.map Prod.fst)
    (hsh2 : r0.map (fun p => p.2.field_type) = first.map (fun p => p.2.field_type))
    (hcanon : recCanonB r0 = true)
    (hmem : r0 ∈ first :: rest) :
    List.Forall₂ (goodPair r0) ((first.map Prod.fst).zip (specInfos first rest))
      (r0.map Prod.snd)
    ∧ (((first.map Prod.fst).zip (specInfos first rest)).zip (r0.map Prod.snd)).map
        (fun q => (q.1.1, q.2)) = r0 := by
  have hlf : r0.length = first.length := by
    have h := congrArg List.length hsh1
    simpa using h
  have hnod0 : nodupB (r0.map Prod.fst) = true := by rw [hsh1]; exact hnod
  have hzl : ((first.map Prod.fst).zip (specInfos first rest)).length = first.length := by
    simp [specInfos]
  rw [recCanonB, List.all_eq_true] at hcanon
  have hname : ∀ j, j < first.length → ∀ hjr : j < r0.length,
      (r0.get ⟨j, hjr⟩).1 = (first.get ⟨j, by omega⟩).1 := by
    intro j hj hjr
    have h := congrArg (fun l => l.getD j "") hsh1
    simpa [List.getD, List.getElem?_eq_getElem, hlf, hj, hjr, List.getElem_map,
      List.get_eq_getElem] using h
  have htype : ∀ j, j < first.length → ∀ hjr : j < r0.length,
      (r0.get ⟨j, hjr⟩).2.field_type = (first.get ⟨j, by omega⟩).2.field_type := by
    intro j hj hjr
    have h := congrArg (fun l => l.getD j FieldType.Character) hsh2
    simpa [List.getD, List.getElem?_eq_getElem, hlf, hj, hjr, List.getElem_map,
      List.get_eq_getElem] using h
  have hlook : ∀ j, ∀ hjr : j < r0.length,
      lookupF (r0.get ⟨j, hjr⟩).1 r0 = some (r0.get ⟨j, hjr⟩).2 :=
    fun j hjr => mem_nodup_lookup r0 hnod0 _ (List.get_mem r0 j hjr)
  have hcv : ∀ j, ∀ hjr : j < r0.length, canonValB (r0.get ⟨j, hjr⟩).2 = true := by
    intro j hjr
    have h := hcanon (r0.get ⟨j, hjr⟩) (List.get_mem r0 j hjr)
    rw [Bool.and_eq_true] at h
    exact h.2
  constructor
  · rw [List.forall₂_iff_get]
    refine ⟨by simp [hzl, hlf], ?_⟩
    intro j h1 h2
    have hj : j < first.length := by rw [hzl] at h1; exact h1
    have hjr : j < r0.length := by simpa using h2
    simp only [List.get_eq_getElem, List.getElem_zip, List.getElem_map, specInfos]
    rw [goodPair]
    have hnm := hname j hj hjr
    have hty := htype j hj hjr
    simp only [List.get_eq_getElem] at hnm hty
    have hlk := hlook j hjr
    have hcvj := hcv j hjr
    simp only [List.get_eq_getElem] at hlk hcvj
    refine ⟨?_, hcvj, ?_, ?_, rfl⟩
    · show lookupF first[j].1 r0 = some r0[j].2
      rw [← hnm]
      exact hlk
    · have hszeq : sizeOfIn r0 first[j].1 = r0[j].2.size_in_bytes := by
        rw [sizeOfIn, ← hnm, hlk]
        rfl
      have hle := sizeOfIn_le_maxSizeOf (first :: rest) r0 hmem first[j].1
      rw [hszeq] at hle
      simpa using hle
    · show first[j].2.field_type = r0[j].2.field_type
      exact hty.symm
  · apply List.ext_get
    · simp [hzl, hlf, specInfos]
    · intro j h1 h2
      have hjr : j < r0.length := h2
      have hj : j < first.length := by omega
      simp only [List.get_eq_getElem, List.getElem_map, List.getElem_zip]
      have hnm := hname j hj hjr
      simp only [List.get_eq_getElem] at hnm
      exact Prod.ext hnm.symm rfl

theorem readFile_eval (bs : List Nat) (hdr : Header) (r1 : List Nat)
    (is : List RecordFieldInfo) (r2 : List Nat) (out : Except Error (List Record))
    (h1 : readHeader bs = .ok (hdr, r1))
    (h2 : readInfos r1.length r1 = .ok (is, r2))
    (h3 : readRecords is hdr.num_records r2 = out) :
    readFile bs = out := by
  rw [readFile, h1]
  have hgoal : (match readInfos r1.length r1 with
      | Except.error e => Except.error e
      | Except.ok (is2, r2b) => readRecords is2 hdr.num_records r2b) = out := by
    rw [h2]
    exact h3
  exact hgoal

theorem forall₂_mem_left {α β : Type} {R : α → β → Prop} :
    ∀ {l1 : List α} {l2 : List β}, List.Forall₂ R l1 l2 → ∀ a ∈ l1, ∃ b, R a b := by
  intro l1 l2 h
  induction h with
  | nil => intro a ha; simp at ha
  | cons hR htl ih =>
    intro a ha
    rcases List.mem_cons.mp ha with h1 | h1
    · exact ⟨_, h1 ▸ hR⟩
    · exact ih a h1

/-- C1 (amended): for a non-empty record set with a consistent schema whose names are
valid descriptor names and whose values are canonical for the codec (nonempty ASCII
Character text without trailing space, decimally-finite numerics that fit a field, in
range dates — nulls always included), writing with Writer::write and decoding the
produced bytes with the Reader returns exactly the same records, null flags included.
Unamended the claim is false: `roundtrip_counterexample` writes a one-space Character
value that decodes to the null Character. -/
theorem write_clean_roundtrip (first : Record) (rest : List Record)
    (hcons : consistentB first rest = true)
    (hcanon : ∀ r ∈ first :: rest, recCanonB r = true)
    (hcount : rest.length + 1 < 2 ^ 32) :
    ∃ w : List Nat, Writer.write Sink.clean (first :: rest) = .ok ⟨w, none⟩ ∧
      readFile w = .ok (first :: rest) := by
  have hcons2 := hcons
  rw [consistentB, Bool.and_eq_true, List.all_eq_true] at hcons2
  obtain ⟨hnod, hsh⟩ := hcons2
  have hsz : ∀ r ∈ first :: rest, ∀ p ∈ r, p.2.size_in_bytes ≤ 255 := by
    intro r hr p hp
    have h := hcanon r hr
    rw [recCanonB, List.all_eq_true] at h
    have h2 := h p hp
    rw [Bool.and_eq_true] at h2
    exact canonVal_size_le p.2 h2.2
  have hshape : ∀ r ∈ first :: rest,
      r.map Prod.fst = first.map Prod.fst
      ∧ r.map (fun p => p.2.field_type) = first.map (fun p => p.2.field_type) := by
    intro r hr
    rcases List.mem_cons.mp hr with h | h
    · subst h; exact ⟨rfl, rfl⟩
    · exact ⟨sameShape_names first r (hsh r h), sameShape_types first r (hsh r h)⟩
  have hrv := fun r hr =>
    record_vals first rest r hnod (hshape r hr).1 (hshape r hr).2 (hcanon r hr) hr
  have hci := computeInfos_spec first rest hcons hsz
  have hok : ∀ r0 ∈ first :: rest,
      ∀ p ∈ (first.map Prod.fst).zip (specInfos first rest), ∃ v,
      lookupF p.1 r0 = some v ∧ v.size_in_bytes ≤ 255
        ∧ v.size_in_bytes ≤ p.2.field_length := by
    intro r0 hr0 p hp
    obtain ⟨v, hv⟩ := forall₂_mem_left (hrv r0 hr0).1 p hp
    obtain ⟨h1, h2, h3, _, _⟩ := hv
    exact ⟨v, h1, canonVal_size_le v h2, h3⟩
  have hw := writeCont_ok (first :: rest) (first.map Prod.fst) (specInfos first rest) hok
  refine ⟨headerBytes (hdrOf (first :: rest).length (specInfos first rest))
      ++ ((specInfos first rest).map descBytes).flatten
      ++ [13] ++ ((first :: rest).map
        (recordBytes (first.map Prod.fst) (specInfos first rest))).flatten ++ [26],
    ?_, ?_⟩
  · rw [Writer.write, hci, Res.bind_ok]
    exact hw
  · set names := first.map Prod.fst with hnames
    set infos := specInfos first rest with hinfos
    set dF := (infos.map descBytes).flatten with hdF
    set rF := ((first :: rest).map (recordBytes names infos)).flatten with hrF
    have hregroup : headerBytes (hdrOf (first :: rest).length infos) ++ dF ++ [13]
        ++ rF ++ [26]
        = headerBytes (hdrOf (first :: rest).length infos)
          ++ (dF ++ 13 :: (rF ++ [26])) := by
      simp [List.append_assoc]
    rw [hregroup]
    have hh := readHeader_bytes (hdrOf (first :: rest).length infos)
      (dF ++ 13 :: (rF ++ [26]))
      (Nat.mod_lt _ (by norm_num)) (Nat.mod_lt _ (by norm_num))
      (Nat.mod_lt _ (by norm_num))
    have hvinfos : ∀ i ∈ infos, validNameB i.name = true ∧ i.field_length ≤ 255 := by
      intro i hi
    -- i = ⟨p.1, p.2.field_type, maxSizeOf (first :: rest) p.1⟩ for p ∈ first
      rw [hinfos, specInfos] at hi
      obtain ⟨p, hp, hpe⟩ := List.mem_map.mp hi
      constructor
      · rw [← hpe]
        have h := hcanon first (List.mem_cons_self first rest)
        rw [recCanonB, List.all_eq_true] at h
        have h2 := h p hp
        rw [Bool.and_eq_true] at h2
        exact h2.1
      · rw [← hpe]
        show maxSizeOf (first :: rest) p.1 ≤ 255
        have hsio : ∀ r ∈ first :: rest, sizeOfIn r p.1 ≤ 255 := by
          intro r hr
          rw [sizeOfIn]
          cases hl : lookupF p.1 r with
          | none => simp
          | some v =>
            have hmemv := lookupF_mem p.1 r v hl
            simpa using hsz r hr (p.1, v) hmemv
        exact foldl_max_le (fun r0 => sizeOfIn r0 p.1) 255 (first :: rest) hsio 0
          (by omega)
    have hri := readInfos_spec infos hvinfos (dF ++ 13 :: (rF ++ [26])).length
      (rF ++ [26]) (by simp [hdF])
    have hnum : (hdrOf (first :: rest).length infos).num_records
        = (first :: rest).length := by
      rw [hdrOf, Header.new]
      show (first :: rest).length % 2 ^ 32 = (first :: rest).length
      rw [Nat.mod_eq_of_lt (by simp; omega)]
    have hlen : infos.length ≤ names.length := by
      rw [hinfos, hnames]
      simp [specInfos]
    have hrr := readRecords_rt names infos hlen (first :: rest) [26]
      (fun r0 hr0 => ⟨r0.map Prod.snd, (hrv r0 hr0).1, (hrv r0 hr0).2⟩)
    refine readFile_eval _ (hdrOf (first :: rest).length infos)
      (dF ++ 13 :: (rF ++ [26])) infos (rF ++ [26]) _ hh ?_ ?_
    · exact hri
    · rw [hnum]
      exact hrr

theorem lookupF_in_names (r : Record) (nm : String) (h : nm ∈ r.map Prod.fst) :
    ∃ v, lookupF nm r = some v := by
  induction r with
  | nil => simp at h
  | cons p t ih =>
    by_cases hp : p.1 = nm
    · exact ⟨p.2, by rw [lookupF, if_pos hp]⟩
    · have h2 : nm ∈ t.map Prod.fst := by
        rcases List.mem_map.mp h with ⟨q, hq, hqe⟩
        rcases List.mem_cons.mp hq with rfl | hqt
        · exact absurd hqe hp
        · exact List.mem_map.mpr ⟨q, hqt, hqe⟩
      obtain ⟨v, hv⟩ := ih h2
      exact ⟨v, by rw [lookupF, if_neg hp, hv]⟩

theorem buildFirstInfos_oversize : ∀ first : Record,
    (∃ p ∈ first, 255 < p.2.size_in_bytes) →
    buildFirstInfos first = .error .FieldLengthTooLong := by
  intro first
  induction first with
  | nil => intro h; simp at h
  | cons q t ih =>
    intro h
    rcases h with ⟨p, hp, hbig⟩
    rcases List.mem_cons.mp hp with rfl | hpt
    · rw [buildFirstInfos, List.mapM_cons, if_pos (by omega)]
      rfl
    · by_cases hq : 255 < q.2.size_in_bytes
      · rw [buildFirstInfos, List.mapM_cons, if_pos hq]
        rfl
      · have ht := ih ⟨p, hpt, hbig⟩
        rw [buildFirstInfos] at ht
        rw [buildFirstInfos, List.mapM_cons, if_neg hq]
        show (Except.ok (RecordFieldInfo.with_length q.1 q.2.field_type q.2.size_in_bytes)
            >>= fun b => t.mapM (fun p =>
              if 255 < p.2.size_in_bytes then Except.error Error.FieldLengthTooLong
              else Except.ok
                (RecordFieldInfo.with_length p.1 p.2.field_type p.2.size_in_bytes))
              >>= fun bs => pure (b :: bs)) = Except.error Error.FieldLengthTooLong
        rw [show (Except.ok (RecordFieldInfo.with_length q.1 q.2.field_type
            q.2.size_in_bytes) : Except Error RecordFieldInfo) >>= (fun b => t.mapM (fun p =>
              if 255 < p.2.size_in_bytes then Except.error Error.FieldLengthTooLong
              else Except.ok
                (RecordFieldInfo.with_length p.1 p.2.field_type p.2.size_in_bytes))
              >>= fun bs => pure (b :: bs))
            = (t.mapM (fun p =>
              if 255 < p.2.size_in_bytes then Except.error Error.FieldLengthTooLong
              else Except.ok
                (RecordFieldInfo.with_length p.1 p.2.field_type p.2.size_in_bytes))
              >>= fun bs => pure ((RecordFieldInfo.with_length q.1 q.2.field_type
                q.2.size_in_bytes) :: bs)) from rfl, ht]
        rfl

/-- C4: every successful Writer::write on a non-empty record set emits exactly the
header, the 32-byte descriptors with the finalized lengths, the 0x0D terminator, per
record a 0x20 deletion flag followed by each field's bytes space-padded to its
descriptor length, and the final 0x1A file terminator. -/
theorem write_emits_exact_layout (first : Record) (rest : List Record) (s : Sink)
    (h : Writer.write Sink.clean (first :: rest) = .ok s) :
    ∃ infos, computeInfos first rest = .ok (first.map Prod.fst, infos) ∧
      s = ⟨headerBytes (hdrOf (first :: rest).length infos)
        ++ (infos.map descBytes).flatten ++ [13]
        ++ ((first :: rest).map (recordBytes (first.map Prod.fst) infos)).flatten
        ++ [26], none⟩ := by
  rw [Writer.write] at h
  match hci : computeInfos first rest with
  | .err e =>
    rw [hci] at h
    exact absurd h (by simp [Res.bind])
  | .crash m =>
    rw [hci] at h
    exact absurd h (by simp [Res.bind])
  | .ok (names, infos) =>
    rw [hci, Res.bind_ok] at h
    obtain ⟨hn, hlen, hsz0, hlook, hpt⟩ := computeInfos_ok_inv first rest names infos hci
    subst hn
    have hsz : ∀ r0 ∈ first :: rest, ∀ p ∈ (first.map Prod.fst).zip infos, ∀ v,
        lookupF p.1 r0 = some v → v.size_in_bytes ≤ 255 := by
      intro r0 hr0 p hp v hv
      rcases List.mem_cons.mp hr0 with rfl | hr0t
      · exact hsz0 (p.1, v) (lookupF_mem p.1 r0 v hv)
      · obtain ⟨⟨j, hjz⟩, hget⟩ := List.mem_iff_get.mp hp
        have hjf : j < first.length := by
          have := hjz
          simp [List.length_zip] at this
          omega
        have hp1 : p.1 = (first.get ⟨j, hjf⟩).1 := by
          rw [← hget]
          simp [List.get_eq_getElem, List.getElem_zip, List.getElem_map]
        obtain ⟨w, hw, hwsz⟩ := hlook r0 hr0t j hjf
        rw [hp1] at hv
        rw [hv] at hw
        exact (Option.some.injEq _ _ ▸ hw) ▸ hwsz
    rcases writeCont_spec (first :: rest) (first.map Prod.fst) infos hsz with ⟨M, hM⟩ | hok2
    · rw [hM] at h
      exact absurd h (by simp)
    · rw [hok2] at h
      exact ⟨infos, rfl, (Res.ok.inj h).symm⟩

/-- C7: under a consistent schema with every value fitting a field, Writer::write
finalizes every descriptor length to the per-column maximum encoded size across all
records, and the emission phase never reaches a panic — in particular not the
"record length was miscalculated" branch — so the pad count is never negative. -/
theorem finalized_lengths_are_maxima (first : Record) (rest : List Record)
    (hcons : consistentB first rest = true)
    (hsz : ∀ r ∈ first :: rest, ∀ p ∈ r, p.2.size_in_bytes ≤ 255) :
    computeInfos first rest
      = .ok (first.map Prod.fst,
          first.map (fun p => ⟨p.1, p.2.field_type, maxSizeOf (first :: rest) p.1⟩))
    ∧ ∀ M, Writer.write Sink.clean (first :: rest) ≠ Res.crash M := by
  have h1 : computeInfos first rest = .ok (first.map Prod.fst, specInfos first rest) :=
    computeInfos_spec first rest hcons hsz
  refine ⟨h1, ?_⟩
  have hcons2 := hcons
  rw [consistentB, Bool.and_eq_true, List.all_eq_true] at hcons2
  obtain ⟨hnod, hsh⟩ := hcons2
  have hok : ∀ r0 ∈ first :: rest,
      ∀ p ∈ (first.map Prod.fst).zip (specInfos first rest),
      ∃ v, lookupF p.1 r0 = some v ∧ v.size_in_bytes ≤ 255
        ∧ v.size_in_bytes ≤ p.2.field_length := by
    intro r0 hr0 p hp
    obtain ⟨⟨j, hjz⟩, hget⟩ := List.mem_iff_get.mp hp
    have hjf : j < first.length := by
      have := hjz
      simp [List.length_zip, specInfos] at this
      omega
    have hp1 : p.1 = (first.get ⟨j, hjf⟩).1 := by
      rw [← hget]
      simp [List.get_eq_getElem, List.getElem_zip, List.getElem_map]
    have hp2 : p.2.field_length = maxSizeOf (first :: rest) (first.get ⟨j, hjf⟩).1 := by
      rw [← hget]
      simp [List.get_eq_getElem, List.getElem_zip, List.getElem_map, specInfos]
    have hr0names : r0.map Prod.fst = first.map Prod.fst := by
      rcases List.mem_cons.mp hr0 with rfl | hr
      · rfl
      · exact sameShape_names first r0 (hsh r0 hr)
    have hmemname : p.1 ∈ r0.map Prod.fst := by
      rw [hr0names, hp1]
      exact List.mem_map.mpr ⟨first.get ⟨j, hjf⟩, List.get_mem first j hjf, rfl⟩
    obtain ⟨v, hv⟩ := lookupF_in_names r0 p.1 hmemname
    refine ⟨v, hv, hsz r0 hr0 (p.1, v) (lookupF_mem p.1 r0 v hv), ?_⟩
    have hs : sizeOfIn r0 p.1 = v.size_in_bytes := by
      rw [sizeOfIn, hv]
      rfl
    calc v.size_in_bytes = sizeOfIn r0 p.1 := hs.symm
      _ ≤ maxSizeOf (first :: rest) p.1 := sizeOfIn_le_maxSizeOf _ r0 hr0 p.1
      _ = p.2.field_length := by rw [hp2, hp1]
  intro M hM
  rw [Writer.write, h1, Res.bind_ok,
    writeCont_ok (first :: rest) (first.map Prod.fst) (specInfos first rest) hok] at hM
  exact absurd hM (by simp)

/-- Closed instance of the finalized-length property: two records negotiate the
column length up to the larger value 4 and the write does not crash. -/
theorem finalized_lengths_are_maxima_witness :
    computeInfos [("A", FieldValue.Character (some "ab"))]
        [[("A", FieldValue.Character (some "wxyz"))]]
      = .ok (["A"], [⟨"A", FieldType.Character, 4⟩])
    ∧ ∀ M, Writer.write Sink.clean
        [[("A", FieldValue.Character (some "ab"))],
         [("A", FieldValue.Character (some "wxyz"))]] ≠ Res.crash M :=
  finalized_lengths_are_maxima [("A", FieldValue.Character (some "ab"))]
    [[("A", FieldValue.Character (some "wxyz"))]] (by decide) (by decide)

/-- C1 counterexample: the schema-consistent record {"A": Character " "} is written
successfully, but decoding the produced bytes yields the null Character, not the
original one-space string, so decode(encode(R)) ≠ R field for field. -/
theorem roundtrip_counterexample :
    consistentB [("A", FieldValue.Character (some " "))] [] = true
    ∧ (Writer.write Sink.clean [[("A", FieldValue.Character (some " "))]]).isOk = true
    ∧ readFile (Res.sinkBytes (Writer.write Sink.clean
        [[("A", FieldValue.Character (some " "))]]))
      = .ok [[("A", FieldValue.Character none)]]
    ∧ [[("A", FieldValue.Character none)]] ≠ [[("A", FieldValue.Character (some " "))]] := by
  decide

/-- Closed instance of the amended round trip on a two-record set mixing Character
and Numeric columns. -/
theorem write_clean_roundtrip_witness :
    ∃ w : List Nat, Writer.write Sink.clean [rsY1, rsY2] = .ok ⟨w, none⟩ ∧
      readFile w = .ok [rsY1, rsY2] :=
  write_clean_roundtrip rsY1 [rsY2] (by decide) (by decide) (by decide)

/-- C2: the headers both writers emit violate the spec's record-size invariant: for
the record {"A": Character "ab"} the finalized field lengths are [2], the spec demands
record_size = 1 + 2 = 3 (the deletion-flag byte), but the header on disk carries
record_size = 2 — writing.rs:85 and writing.rs:139-141 sum the field lengths without
the +1. The header-size half of the invariant does hold (offset 65 = 32 + 32 + 1). -/
theorem record_size_missing_flag :
    Writer.write Sink.clean [[("A", FieldValue.Character (some "ab"))]]
      = .ok ⟨w2bytes, none⟩
    ∧ Writer.write_records charImpl Sink.clean ["ab"] = .ok ⟨w2rbytes, none⟩
    ∧ readHeader w2bytes = .ok (⟨1, 65, 2⟩, w2bytes.drop 32)
    ∧ readHeader w2rbytes = .ok (⟨1, 65, 2⟩, w2rbytes.drop 32)
    ∧ computeInfos [("A", FieldValue.Character (some "ab"))] []
      = .ok (["A"], [⟨"A", FieldType.Character, 2⟩])
    ∧ (⟨1, 65, 2⟩ : Header).size_of_record
        ≠ 1 + sumLengths [⟨"A", FieldType.Character, 2⟩]
    ∧ (⟨1, 65, 2⟩ : Header).offset_to_first_record
        = Header.SIZE + 1 * RecordFieldInfo.SIZE + 1 := by
  decide

/-- C3: Writer::write_records on a record whose runtime value type (Numeric) differs
from the declared schema type (Character) does not return FieldTypeNotAsExpected: it
panics (writing.rs:162-168, panic annotated "TODO make an Error"). -/
theorem type_mismatch_panics :
    Writer.write_records mismatchImpl Sink.clean [()]
      = Res.crash "Field Value type given does not match expected field type" := by
  decide

/-- C5 (amended): Writer::write rejects a record set whose first record holds a value
over 255 encoded bytes with FieldLengthTooLong (writing.rs:62-65); Writer::write_records
does not return that error for an oversized value — it panics, see
`write_records_oversize_panics`. -/
theorem write_rejects_oversize (first : Record) (rest : List Record)
    (h : ∃ p ∈ first, 255 < p.2.size_in_bytes) :
    Writer.write Sink.clean (first :: rest) = .err .FieldLengthTooLong := by
  rw [Writer.write, computeInfos, buildFirstInfos_oversize first h]
  rfl

/-- Closed instance of the oversize rejection: a 256-character Character value in the
first record. -/
theorem write_rejects_oversize_witness :
    Writer.write Sink.clean [[("A", FieldValue.Character (some longStr))]]
      = .err .FieldLengthTooLong :=
  write_rejects_oversize [("A", FieldValue.Character (some longStr))] []
    ⟨("A", FieldValue.Character (some longStr)), by decide, by decide⟩

/-- C5 counterexample: Writer::write_records on a 256-byte value does not return
FieldLengthTooLong — it panics "FieldValue was too long" (writing.rs:170-173). -/
theorem write_records_oversize_panics :
    Writer.write_records longImpl Sink.clean [()] = Res.crash "FieldValue was too long" := by
  decide

/-- C6: writing.rs:151 discards the io Result of writing the 0x0D descriptor
terminator. On a sink whose single io failure lands exactly on that byte,
Writer::write_records still returns Ok and the terminator byte is missing from the
emitted stream (compare the failure-free run, where offset 64 holds 0x0D). -/
theorem terminator_io_result_dropped :
    Writer.write_records charImpl ⟨[], some 64⟩ ["a"] = .ok ⟨c6lost, none⟩
    ∧ Writer.write_records charImpl Sink.clean ["a"] = .ok ⟨c6clean, none⟩
    ∧ c6clean.getD 64 0 = 13
    ∧ 13 ∉ c6lost := by
  decide

/-- C8: extract_field_value! on a successfully decoded value of the wrong variant
returns FieldTypeNotAsExpected carrying the value's actual field type, and on a decode
error propagates that error unchanged (src/lib.rs:102-112). -/
theorem extract_wrong_variant (v : FieldValue) (t : FieldType) (e : Error)
    (hne : v.field_type ≠ t) :
    extract_field_value (some (.ok v)) t = .err (.FieldTypeNotAsExpected v.field_type)
    ∧ extract_field_value (some (.error e)) t = .err e := by
  constructor
  · rw [extract_field_value, if_neg (by simp [FieldValue.isVariant, hne])]
  · rfl

/-- Closed instance of the extraction behaviour: a Numeric value against an expected
Character slot, and a propagated InvalidDate. -/
theorem extract_wrong_variant_witness :
    extract_field_value (some (.ok (FieldValue.Numeric none))) FieldType.Character
      = .err (.FieldTypeNotAsExpected FieldType.Numeric)
    ∧ extract_field_value (some (.error Error.InvalidDate)) FieldType.Character
      = .err Error.InvalidDate :=
  extract_wrong_variant (FieldValue.Numeric none) FieldType.Character Error.InvalidDate
    (by decide)

/-- C9: Writer::write depends only on its inputs: equal record lists on equal sinks
produce identical results, and the field order derived from the first record (the
spec's ordered-mapping reading of Record) is the same across the two runs. -/
theorem write_deterministic (records1 records2 : List Record) (s1 s2 : Sink)
    (h1 : records1 = records2) (h2 : s1 = s2) :
    Writer.write s1 records1 = Writer.write s2 records2
    ∧ fieldOrderOf records1 = fieldOrderOf records2 := by
  subst h1
  subst h2
  exact ⟨rfl, rfl⟩

/-- Closed instance of determinism on a concrete record list. -/
theorem write_deterministic_witness :
    Writer.write Sink.clean [rsY1, rsY2] = Writer.write Sink.clean [rsY1, rsY2]
    ∧ fieldOrderOf [rsY1, rsY2] = fieldOrderOf [rsY1, rsY2] :=
  write_deterministic [rsY1, rsY2] [rsY1, rsY2] Sink.clean Sink.clean rfl rfl

/-- C10: on the empty record collection both writers return Ok with the sink exactly
as given — no header, descriptor, terminator or any other byte is written
(writing.rs:55-57 and 117-119). -/
theorem empty_write_is_noop (s : Sink) (impl : DBaseImpl Unit) :
    Writer.write s [] = .ok s ∧ Writer.write_records impl s [] = .ok s :=
  ⟨rfl, rfl⟩

/-- Closed instance of the exact-layout property at the record {"A": Logical null}. -/
theorem write_emits_exact_layout_witness :
    ∃ infos, computeInfos [("A", FieldValue.Logical none)] []
        = .ok (["A"], infos) ∧
      (⟨layoutBytes, none⟩ : Sink)
        = ⟨headerBytes (hdrOf 1 infos)
          ++ (infos.map descBytes).flatten ++ [13]
          ++ ([[("A", FieldValue.Logical none)]].map (recordBytes ["A"] infos)).flatten
          ++ [26], none⟩ :=
  write_emits_exact_layout [("A", FieldValue.Logical none)] [] ⟨layoutBytes, none⟩
    (by decide)
